import Mathlib

/-!
Verification of the resumable batch-download engine in
`sandbox/scrapers/article_scraper/dr_article_scraper.py`.

Strings of the Python program are modelled as `List Char`.  Pure string
functions (`sanitize_for_filename`, `sanitize_for_foldername`, the bucket-key
computation) are translated directly; the stateful archiver
(`archive_articles`) is modelled as an explicit state-passing run over a
record of the file system, the progress file and the two error logs, with the
HTTP layer abstracted as an oracle giving the result of each attempt.
-/

namespace DDR

/-- Python strings are sequences of characters. -/
abbrev Str := List Char

/-- Character list of a Lean string literal (used for concrete inputs). -/
def chars (s : String) : Str := s.data

/-! ### Sanitizer (source lines 27-40) -/

/-- Match of the regex fragment `https?://` at the head of a list:
`some rest` when the head is `http://` or `https://`. -/
def matchHttpProto (l : Str) : Option Str :=
  match l with
  | 'h' :: 't' :: 't' :: 'p' :: rest =>
    match rest with
    | 's' :: ':' :: '/' :: '/' :: r => some r
    | ':' :: '/' :: '/' :: r => some r
    | _ => none
  | _ => none

/-- Consume characters up to and including the next `'/'`. -/
def chompToSlash : Str → Option Str
  | [] => none
  | c :: rest => if c = '/' then some rest else chompToSlash rest

/-- Match of the regex fragment `[^/]+/` at the head of a list. -/
def matchHostSlash (l : Str) : Option Str :=
  match l with
  | [] => none
  | c :: rest => if c = '/' then none else chompToSlash rest

/-- Fueled scan implementing `re.sub(r'https?://[^/]+/', '', text)`:
non-overlapping matches, left to right, are deleted.  The fuel is the
length of the list, which bounds the number of scan positions. -/
def subProtoHostAux : Nat → Str → Str
  | _, [] => []
  | 0, l => l
  | fuel + 1, c :: rest =>
    match matchHttpProto (c :: rest) with
    | some afterProto =>
      match matchHostSlash afterProto with
      | some r => subProtoHostAux fuel r
      | none => c :: subProtoHostAux fuel rest
    | none => c :: subProtoHostAux fuel rest

/-- `re.sub(r'https?://[^/]+/', '', text)` (source line 31). -/
def subProtoHost (l : Str) : Str := subProtoHostAux l.length l

/-- Characters kept by the regex class `[a-zA-Z0-9_-]`. -/
def safeChar (c : Char) : Bool :=
  ('a' ≤ c && c ≤ 'z') || ('A' ≤ c && c ≤ 'Z') || ('0' ≤ c && c ≤ '9') ||
    c = '_' || c = '-'

/-- One character of `re.sub(r'[^a-zA-Z0-9_-]', '_', text)`. -/
def subChar (c : Char) : Char := if safeChar c then c else '_'

/-- `sanitize_for_filename` (source lines 27-32). -/
def sanitize_for_filename (text : Str) : Str :=
  (subProtoHost text).map subChar

/-- Fueled implementation of Python `str.replace(pat, "")`: all
non-overlapping occurrences of `pat`, found left to right, are removed. -/
def replacePatAux (pat : Str) : Nat → Str → Str
  | _, [] => []
  | 0, l => l
  | fuel + 1, c :: rest =>
    if pat ≠ [] ∧ pat.isPrefixOf (c :: rest) then
      replacePatAux pat fuel (List.drop pat.length (c :: rest))
    else
      c :: replacePatAux pat fuel rest

/-- Python `text.replace(pat, "")`. -/
def replacePat (pat : Str) (l : Str) : Str := replacePatAux pat l.length l

/-- The literal `"https://"`. -/
def httpsPat : Str := chars "https://"

/-- The literal `"http://"`. -/
def httpPat : Str := chars "http://"

/-- Python `text.strip(c)`: removes every leading and every trailing
occurrence of the character `c`. -/
def stripChar (c : Char) (l : Str) : Str :=
  ((l.dropWhile (· = c)).reverse.dropWhile (· = c)).reverse

/-- `sanitize_for_foldername` (source lines 34-40): drop every occurrence of
`"https://"` and then of `"http://"`, replace unsafe characters by `'_'`,
then `strip('_')`. -/
def sanitize_for_foldername (text : Str) : Str :=
  stripChar '_' ((replacePat httpPat (replacePat httpsPat text)).map subChar)

/-- Sanitization exactly as claim C5 words it (for comparison with the code):
strip one protocol PREFIX if present, replace every character outside
`[A-Za-z0-9_-]` with `'_'`, and trim TRAILING underscores only. -/
def sanitizeForFoldernameClaim (text : Str) : Str :=
  let t := if httpsPat.isPrefixOf text then List.drop httpsPat.length text
           else if httpPat.isPrefixOf text then List.drop httpPat.length text
           else text
  ((t.map subChar).reverse.dropWhile (· = '_')).reverse

/-! ### Classifier (source lines 88-101) -/

/-- Python `url.rfind('/')`: index of the last occurrence, `none` for `-1`. -/
def rfind (c : Char) : Str → Option Nat
  | [] => none
  | x :: xs =>
    match rfind c xs with
    | some j => some (j + 1)
    | none => if x = c then some 0 else none

/-- Bucket key of a URL (source lines 90-92, re-checked at lines 118-124):
the prefix up to and including the last `'/'`, provided that slash exists
and is not the final character. -/
def linkType (u : Str) : Option Str :=
  match rfind '/' u with
  | none => none
  | some j => if j + 1 < u.length then some (List.take (j + 1) u) else none

/-- `url[last_slash_index + 1:]` (source line 135). -/
def urlSlug (u : Str) : Str :=
  match rfind '/' u with
  | none => u
  | some j => List.drop (j + 1) u

/-- The multiset of bucket keys obtained by scanning the URL list
(source lines 89-93). -/
def keysOf (urls : List Str) : List Str := urls.filterMap linkType

/-- First-occurrence deduplication, preserving the order in which elements
are first encountered — the iteration order of a Python `Counter`. -/
def firstSeen {α} [DecidableEq α] : List α → List α
  | [] => []
  | x :: xs => x :: (firstSeen xs).filter (· ≠ x)

/-- Position of the first occurrence of `a` in a list (the encounter rank of
a bucket key during the scan). -/
def idxIn {α : Type} [DecidableEq α] (a : α) : List α → Nat
  | [] => 0
  | x :: xs => if x = a then 0 else idxIn a xs + 1

/-- The `(key, count)` items of `collections.Counter`, in first-seen order. -/
def counterItems (urls : List Str) : List (Str × Nat) :=
  (firstSeen (keysOf urls)).map fun k => (k, (keysOf urls).count k)

/-- `Counter.most_common()`: a stable sort of the items by descending count
(CPython: `sorted(items, key=itemgetter(1), reverse=True)`). -/
def mostCommon (urls : List Str) : List (Str × Nat) :=
  List.insertionSort (fun a b => b.2 ≤ a.2) (counterItems urls)

/-- Python `f"{i:03d}"` for a nonnegative rank: decimal digits, left-padded
with `'0'` to width 3. -/
def pad3 (n : Nat) : Str :=
  List.replicate (3 - (Nat.toDigits 10 n).length) '0' ++ Nat.toDigits 10 n

/-- `folder_name = f"{prefix}_{sanitized_type}"` (source lines 97-99). -/
def folderName (rank : Nat) (key : Str) : Str :=
  pad3 rank ++ '_' :: sanitize_for_foldername key

/-- `folder_mapping` (source lines 95-100): key to `{rank:03d}_{sanitized}`,
ranks assigned by `enumerate(most_common(), 1)`. -/
def folderMapping (urls : List Str) : List (Str × Str) :=
  (List.enumFrom 1 (mostCommon urls)).map fun p => (p.2.1, folderName p.1 p.2.1)

/-! ### Fetch engine (source lines 108-180) -/

/-- Result of one `session.get` + `raise_for_status` attempt, as seen by the
exception handlers of the attempt loop. -/
inductive FetchResult
  | success (body : Str)
  | tooManyRedirects
  | httpError (status : Nat)
  | networkError
deriving DecidableEq

/-- An error that the attempt loop retries: a non-404 HTTP error status or a
network-level error (source lines 172-180). -/
def retryable : FetchResult → Bool
  | .networkError => true
  | .httpError s => s ≠ 404
  | _ => false

/-- Terminal result of the attempt loop for one URL. -/
inductive AttemptOutcome
  | success (body : Str)
  | notFound
  | redirectLoop
  | exhausted
deriving DecidableEq

/-- Trace of one URL's attempt loop: its terminal result, the number of HTTP
requests issued, and the backoff sleeps performed (in order). -/
structure AttemptTrace where
  result : AttemptOutcome
  calls : Nat
  sleeps : List Nat
deriving DecidableEq

/-- `max_retries = 3` (source line 110). -/
def max_retries : Nat := 3

/-- `for attempt in range(max_retries)` (source lines 144-180), fueled by the
number of remaining iterations; `k` is the 0-indexed attempt number.  Falling
out of the loop without a break leaves the URL unprocessed (`exhausted`). -/
def attemptLoopAux (orc : Nat → FetchResult) : Nat → Nat → AttemptTrace
  | 0, _ => ⟨.exhausted, 0, []⟩
  | fuel + 1, k =>
    match orc k with
    | .success body => ⟨.success body, 1, []⟩
    | .tooManyRedirects => ⟨.redirectLoop, 1, []⟩
    | .httpError s =>
      if s = 404 then ⟨.notFound, 1, []⟩
      else
        let rest := attemptLoopAux orc fuel (k + 1)
        ⟨rest.result, rest.calls + 1,
          (if k < max_retries - 1 then [2 ^ k] else []) ++ rest.sleeps⟩
    | .networkError =>
      let rest := attemptLoopAux orc fuel (k + 1)
      ⟨rest.result, rest.calls + 1,
        (if k < max_retries - 1 then [2 ^ k] else []) ++ rest.sleeps⟩

/-- The whole attempt loop for one URL. -/
def attemptLoop (orc : Nat → FetchResult) : AttemptTrace :=
  attemptLoopAux orc max_retries 0

/-- Per-URL outcome of one loop iteration of `archive_articles`. -/
inductive Outcome
  | saved
  | skippedMalformed
  | skippedNoBucket
  | skippedExisting
  | logged404
  | loggedRedirect
  | fatal
deriving DecidableEq

/-- `os.path.join` for the paths built by the archiver. -/
def pathJoin (a b : Str) : Str :=
  if a = [] then b
  else if b.head? = some '/' then b
  else if a.getLast? = some '/' then a ++ b
  else a ++ '/' :: b

/-- The literal `".html"`. -/
def htmlExt : Str := chars ".html"

/-- Target file path of a URL (source lines 124-137): `none` when the URL is
malformed or has no (nonempty) folder mapping, otherwise
`base/{folder}/{sanitized slug}.html`. -/
def targetPath (base : Str) (mapping : List (Str × Str)) (url : Str) :
    Option Str :=
  match linkType url with
  | none => none
  | some lt =>
    let tf := (List.lookup lt mapping).getD []
    if tf = [] then none
    else some (pathJoin (pathJoin base tf) (sanitize_for_filename (urlSlug url) ++ htmlExt))

/-- Effect of processing one URL (source lines 117-180). -/
structure StepOut where
  outcome : Outcome
  fs : List (Str × Str)
  calls : Nat
  sleeps : List Nat
  add404 : List Str
  addRedirect : List Str
deriving DecidableEq

/-- One iteration of the main loop body for a URL: the malformed check
(lines 118-122), the folder lookup with Python truthiness (lines 124-130,
skipping when the mapping is missing or the name is the empty string), the
existence check (lines 139-142), then the attempt loop, writing the body on
success and logging 404s and redirect loops (lines 144-180). -/
def processUrl (base : Str) (mapping : List (Str × Str)) (fs : List (Str × Str))
    (orc : Nat → FetchResult) (url : Str) : StepOut :=
  match linkType url with
  | none => ⟨.skippedMalformed, fs, 0, [], [], []⟩
  | some lt =>
    let tf := (List.lookup lt mapping).getD []
    if tf = [] then ⟨.skippedNoBucket, fs, 0, [], [], []⟩
    else
      let fp := pathJoin (pathJoin base tf) (sanitize_for_filename (urlSlug url) ++ htmlExt)
      if (List.lookup fp fs).isSome then ⟨.skippedExisting, fs, 0, [], [], []⟩
      else
        let t := attemptLoop orc
        match t.result with
        | .success body => ⟨.saved, (fp, body) :: fs, t.calls, t.sleeps, [], []⟩
        | .notFound => ⟨.logged404, fs, t.calls, t.sleeps, [url], []⟩
        | .redirectLoop => ⟨.loggedRedirect, fs, t.calls, t.sleeps, [], [url]⟩
        | .exhausted => ⟨.fatal, fs, t.calls, t.sleeps, [], []⟩

/-! ### The run (source lines 42-194) -/

/-- Persistent state of the archiver: file system (path to contents),
progress file (the integer it holds, `none` when absent), and the two
append-only error logs. -/
structure RunState where
  marker : Option Int
  fs : List (Str × Str)
  log404 : List Str
  logRedirect : List Str
deriving DecidableEq

/-- Record of one processed loop index. -/
structure Step where
  idx : Int
  url : Str
  outcome : Outcome
  calls : Nat
  sleeps : List Nat
deriving DecidableEq

/-- Result of the main loop: the processed steps in order, the final state,
whether the loop stopped early via `break` (fatal failure), and whether it
aborted with an uncaught `IndexError`. -/
structure RunOut where
  steps : List Step
  final : RunState
  halted : Bool
  err : Bool
deriving DecidableEq

/-- Python list indexing `urls[i]`, including negative indices counting from
the end; `none` models an `IndexError`. -/
def pythonGet (urls : List Str) (i : Int) : Option Str :=
  if 0 ≤ i then urls[i.toNat]?
  else if -(urls.length : Int) ≤ i then urls[((urls.length : Int) + i).toNat]?
  else none

/-- The `Step` record of one processed index. -/
def stepOf (i : Int) (url : Str) (so : StepOut) : Step :=
  ⟨i, url, so.outcome, so.calls, so.sleeps⟩

/-- State after a non-fatal outcome at index `i`: the progress file is
written with `i` (source lines 183-185) and the logs and file system take
the step's effects. -/
def advState (i : Int) (st : RunState) (so : StepOut) : RunState :=
  ⟨some i, so.fs, st.log404 ++ so.add404, st.logRedirect ++ so.addRedirect⟩

/-- State after a fatal outcome: the progress file is untouched
(source lines 187-189). -/
def haltState (st : RunState) (so : StepOut) : RunState :=
  ⟨st.marker, so.fs, st.log404 ++ so.add404, st.logRedirect ++ so.addRedirect⟩

/-- The main loop `for i in range(start_index, total_urls)`
(source lines 112-189), fueled by the number of remaining iterations.
A non-fatal outcome writes `i` to the progress file and continues; a fatal
outcome breaks; an out-of-range index raises (uncaught). -/
def runLoop (base : Str) (mapping : List (Str × Str)) (orc : Int → Nat → FetchResult)
    (urls : List Str) : Nat → Int → RunState → RunOut
  | 0, _, st => ⟨[], st, false, false⟩
  | fuel + 1, i, st =>
    match pythonGet urls i with
    | none => ⟨[], st, false, true⟩
    | some url =>
      let so := processUrl base mapping st.fs (orc i) url
      if so.outcome = .fatal then
        ⟨[stepOf i url so], haltState st so, true, false⟩
      else
        let rest := runLoop base mapping orc urls fuel (i + 1) (advState i st so)
        ⟨stepOf i url so :: rest.steps, rest.final, rest.halted, rest.err⟩

/-- The resume decision (source lines 52-69): no progress file means start at
0; otherwise accepting the prompt starts at `marker + 1` and declining
starts at 0. -/
def startIndex : Option Int → Bool → Int
  | none, _ => 0
  | some m, accept => if accept then m + 1 else 0

/-- Observable phases of `archive_articles`, for ordering properties. -/
inductive TopEvent
  | progressCheck
  | readMarker
  | prompt
  | loadUrls
  | buildMapping
  | download (i : Int)
deriving DecidableEq

/-- The download events of one step: one per HTTP request it issued. -/
def stepEvents (s : Step) : List TopEvent :=
  List.replicate s.calls (TopEvent.download s.idx)

/-- Result of one invocation of `archive_articles`. -/
structure ArchiveOut where
  events : List TopEvent
  steps : List Step
  final : RunState
  halted : Bool
  err : Bool
  earlyEmpty : Bool
  cleared : Bool
deriving DecidableEq

/-- One invocation of `archive_articles` (source lines 42-194): resume logic
first (lines 52-72), then the URL list (assumed already read; an empty list
returns early, lines 84-86), then the folder mapping (lines 88-101), then the
main loop; on natural loop completion (`for ... else`, lines 191-194) the
progress file is removed if present. -/
def archive (marker : Option Int) (accept : Bool) (urls : List Str) (base : Str)
    (orc : Int → Nat → FetchResult) (fs : List (Str × Str))
    (l4 lr : List Str) : ArchiveOut :=
  let start := startIndex marker accept
  let preEvents := [TopEvent.progressCheck] ++
    (match marker with
     | some _ => [TopEvent.readMarker, TopEvent.prompt]
     | none => []) ++ [TopEvent.loadUrls]
  if urls = [] then
    ⟨preEvents, [], ⟨marker, fs, l4, lr⟩, false, false, true, false⟩
  else
    let mapping := folderMapping urls
    let fuel := ((urls.length : Int) - start).toNat
    let out := runLoop base mapping orc urls fuel start ⟨marker, fs, l4, lr⟩
    let cleared := !out.halted && !out.err && out.final.marker.isSome
    let final := if cleared then
        RunState.mk none out.final.fs out.final.log404 out.final.logRedirect
      else out.final
    ⟨preEvents ++ [TopEvent.buildMapping] ++ out.steps.flatMap stepEvents,
     out.steps, final, out.halted, out.err, false, cleared⟩

/-- The integer list `[a, a+1, ..., a+n-1]`. -/
def intRange (a : Int) (n : Nat) : List Int :=
  (List.range n).map fun (k : Nat) => a + (k : Int)

/-! ### Lemmas about the attempt loop -/

theorem attemptLoopAux_calls_le (orc : Nat → FetchResult) :
    ∀ fuel k, (attemptLoopAux orc fuel k).calls ≤ fuel := by
  intro fuel
  induction fuel with
  | zero => intro k; simp [attemptLoopAux]
  | succ n ih =>
    intro k
    simp only [attemptLoopAux]
    cases orc k with
    | success body => simp
    | tooManyRedirects => simp
    | httpError s =>
      by_cases hs : s = 404
      · simp [hs]
      · simp only [hs, if_false]
        exact Nat.add_le_add_right (ih (k + 1)) 1
    | networkError => exact Nat.add_le_add_right (ih (k + 1)) 1

theorem attemptLoopAux_calls_pos (orc : Nat → FetchResult) (fuel k : Nat)
    (h : 0 < fuel) : 1 ≤ (attemptLoopAux orc fuel k).calls := by
  obtain ⟨n, rfl⟩ := Nat.exists_eq_succ_of_ne_zero (Nat.pos_iff_ne_zero.mp h)
  simp only [attemptLoopAux]
  cases orc k with
  | success body => simp
  | tooManyRedirects => simp
  | httpError s =>
    by_cases hs : s = 404
    · simp [hs]
    · simp [hs]
  | networkError => simp

/-! ### Lemmas about processing one URL -/

theorem processUrl_cases (base : Str) (mp : List (Str × Str)) (fs : List (Str × Str))
    (orc : Nat → FetchResult) (url : Str) :
    (targetPath base mp url = none ∧
      ((processUrl base mp fs orc url).outcome = .skippedMalformed ∨
        (processUrl base mp fs orc url).outcome = .skippedNoBucket) ∧
      processUrl base mp fs orc url =
        ⟨(processUrl base mp fs orc url).outcome, fs, 0, [], [], []⟩) ∨
    (∃ pa, targetPath base mp url = some pa ∧ (List.lookup pa fs).isSome = true ∧
      processUrl base mp fs orc url = ⟨.skippedExisting, fs, 0, [], [], []⟩) ∨
    (∃ pa, targetPath base mp url = some pa ∧ List.lookup pa fs = none ∧
      ((∃ body, (attemptLoop orc).result = .success body ∧
         processUrl base mp fs orc url =
           ⟨.saved, (pa, body) :: fs, (attemptLoop orc).calls, (attemptLoop orc).sleeps, [], []⟩) ∨
       ((attemptLoop orc).result = .notFound ∧
         processUrl base mp fs orc url =
           ⟨.logged404, fs, (attemptLoop orc).calls, (attemptLoop orc).sleeps, [url], []⟩) ∨
       ((attemptLoop orc).result = .redirectLoop ∧
         processUrl base mp fs orc url =
           ⟨.loggedRedirect, fs, (attemptLoop orc).calls, (attemptLoop orc).sleeps, [], [url]⟩) ∨
       ((attemptLoop orc).result = .exhausted ∧
         processUrl base mp fs orc url =
           ⟨.fatal, fs, (attemptLoop orc).calls, (attemptLoop orc).sleeps, [], []⟩))) := by
  unfold processUrl targetPath
  cases hlt : linkType url with
  | none => exact Or.inl ⟨rfl, Or.inl rfl, rfl⟩
  | some lt =>
    simp only
    by_cases htf : (List.lookup lt mp).getD [] = []
    · rw [if_pos htf, if_pos htf]
      exact Or.inl ⟨rfl, Or.inr rfl, rfl⟩
    · rw [if_neg htf, if_neg htf]
      by_cases hex : (List.lookup (pathJoin (pathJoin base ((List.lookup lt mp).getD []))
          (sanitize_for_filename (urlSlug url) ++ htmlExt)) fs).isSome = true
      · rw [if_pos hex]
        exact Or.inr (Or.inl ⟨_, rfl, hex, rfl⟩)
      · rw [if_neg hex]
        have hnone : List.lookup (pathJoin (pathJoin base ((List.lookup lt mp).getD []))
            (sanitize_for_filename (urlSlug url) ++ htmlExt)) fs = none := by
          cases h : List.lookup (pathJoin (pathJoin base ((List.lookup lt mp).getD []))
              (sanitize_for_filename (urlSlug url) ++ htmlExt)) fs
          · rfl
          · exact absurd (by simp [h]) hex
        refine Or.inr (Or.inr ⟨_, rfl, hnone, ?_⟩)
        cases hres : (attemptLoop orc).result with
        | success body => exact Or.inl ⟨body, rfl, rfl⟩
        | notFound => exact Or.inr (Or.inl ⟨rfl, rfl⟩)
        | redirectLoop => exact Or.inr (Or.inr (Or.inl ⟨rfl, rfl⟩))
        | exhausted => exact Or.inr (Or.inr (Or.inr ⟨rfl, rfl⟩))

theorem processUrl_add404 (base : Str) (mp fs : List (Str × Str))
    (orc : Nat → FetchResult) (url : Str) :
    (processUrl base mp fs orc url).add404 =
      if (processUrl base mp fs orc url).outcome = .logged404 then [url] else [] := by
  rcases processUrl_cases base mp fs orc url with
      ⟨_, ho, he⟩ | ⟨pa, _, _, he⟩ | ⟨pa, _, _,
        ⟨body, _, he⟩ | ⟨_, he⟩ | ⟨_, he⟩ | ⟨_, he⟩⟩ <;>
    rw [he] <;> first
      | (rcases ho with h | h <;> simp [h])
      | simp

theorem processUrl_addRedirect (base : Str) (mp fs : List (Str × Str))
    (orc : Nat → FetchResult) (url : Str) :
    (processUrl base mp fs orc url).addRedirect =
      if (processUrl base mp fs orc url).outcome = .loggedRedirect then [url] else [] := by
  rcases processUrl_cases base mp fs orc url with
      ⟨_, ho, he⟩ | ⟨pa, _, _, he⟩ | ⟨pa, _, _,
        ⟨body, _, he⟩ | ⟨_, he⟩ | ⟨_, he⟩ | ⟨_, he⟩⟩ <;>
    rw [he] <;> first
      | (rcases ho with h | h <;> simp [h])
      | simp

theorem processUrl_lookup_pres (base : Str) (mp fs : List (Str × Str))
    (orc : Nat → FetchResult) (url : Str) (pa : Str)
    (h : (List.lookup pa fs).isSome = true) :
    List.lookup pa (processUrl base mp fs orc url).fs = List.lookup pa fs := by
  rcases processUrl_cases base mp fs orc url with
      ⟨_, ho, he⟩ | ⟨pa', _, _, he⟩ | ⟨pa', _, hn,
        ⟨body, _, he⟩ | ⟨_, he⟩ | ⟨_, he⟩ | ⟨_, he⟩⟩ <;> rw [he]
  have hne : pa ≠ pa' := by
    intro hpp
    rw [hpp, hn] at h
    simp at h
  simp [List.lookup, beq_eq_false_iff_ne.mpr hne]

/-! ### Lemmas about `intRange` -/

theorem intRange_succ (a : Int) (n : Nat) :
    intRange a (n + 1) = a :: intRange (a + 1) n := by
  unfold intRange
  rw [List.range_succ_eq_map]
  simp only [List.map_cons, List.map_map]
  refine congrArg₂ _ (by omega) ?_
  refine List.map_congr_left ?_
  intro k _
  simp only [Function.comp_apply]
  omega

/-! ### Unfolding equations for the main loop -/

theorem runLoop_zero (base : Str) (mp : List (Str × Str))
    (orc : Int → Nat → FetchResult) (urls : List Str) (i : Int) (st : RunState) :
    runLoop base mp orc urls 0 i st = ⟨[], st, false, false⟩ := rfl

theorem runLoop_succ_none (base : Str) (mp : List (Str × Str))
    (orc : Int → Nat → FetchResult) (urls : List Str) (n : Nat) (i : Int)
    (st : RunState) (hg : pythonGet urls i = none) :
    runLoop base mp orc urls (n + 1) i st = ⟨[], st, false, true⟩ := by
  simp only [runLoop, hg]

theorem runLoop_succ_fatal (base : Str) (mp : List (Str × Str))
    (orc : Int → Nat → FetchResult) (urls : List Str) (n : Nat) (i : Int)
    (st : RunState) (url : Str) (hg : pythonGet urls i = some url)
    (hf : (processUrl base mp st.fs (orc i) url).outcome = Outcome.fatal) :
    runLoop base mp orc urls (n + 1) i st =
      ⟨[stepOf i url (processUrl base mp st.fs (orc i) url)],
       haltState st (processUrl base mp st.fs (orc i) url), true, false⟩ := by
  simp only [runLoop, hg]
  rw [if_pos hf]

theorem runLoop_succ_cont (base : Str) (mp : List (Str × Str))
    (orc : Int → Nat → FetchResult) (urls : List Str) (n : Nat) (i : Int)
    (st : RunState) (url : Str) (hg : pythonGet urls i = some url)
    (hf : ¬ (processUrl base mp st.fs (orc i) url).outcome = Outcome.fatal) :
    runLoop base mp orc urls (n + 1) i st =
      ⟨stepOf i url (processUrl base mp st.fs (orc i) url) ::
         (runLoop base mp orc urls n (i + 1)
           (advState i st (processUrl base mp st.fs (orc i) url))).steps,
       (runLoop base mp orc urls n (i + 1)
         (advState i st (processUrl base mp st.fs (orc i) url))).final,
       (runLoop base mp orc urls n (i + 1)
         (advState i st (processUrl base mp st.fs (orc i) url))).halted,
       (runLoop base mp orc urls n (i + 1)
         (advState i st (processUrl base mp st.fs (orc i) url))).err⟩ := by
  simp only [runLoop, hg]
  rw [if_neg hf]

theorem intRange_zero (a : Int) : intRange a 0 = [] := by
  simp [intRange]

theorem intRange_one (a : Int) : intRange a 1 = [a] := by
  rw [intRange_succ, intRange_zero]

/-! ### Lemmas about the main loop -/

theorem runLoop_steps_idx (base : Str) (mp : List (Str × Str))
    (orc : Int → Nat → FetchResult) (urls : List Str) :
    ∀ (fuel : Nat) (i : Int) (st : RunState),
      (runLoop base mp orc urls fuel i st).steps.map Step.idx =
        intRange i (runLoop base mp orc urls fuel i st).steps.length := by
  intro fuel
  induction fuel with
  | zero => intro i st; rw [runLoop_zero]; simp [intRange_zero]
  | succ n ih =>
    intro i st
    cases hg : pythonGet urls i with
    | none => rw [runLoop_succ_none base mp orc urls n i st hg]; simp [intRange_zero]
    | some url =>
      by_cases hf : (processUrl base mp st.fs (orc i) url).outcome = Outcome.fatal
      · rw [runLoop_succ_fatal base mp orc urls n i st url hg hf]
        simp [stepOf, intRange_one]
      · rw [runLoop_succ_cont base mp orc urls n i st url hg hf]
        simp only [List.map_cons, List.length_cons, stepOf]
        rw [intRange_succ, ih]

theorem runLoop_steps_len_le (base : Str) (mp : List (Str × Str))
    (orc : Int → Nat → FetchResult) (urls : List Str) :
    ∀ (fuel : Nat) (i : Int) (st : RunState),
      (runLoop base mp orc urls fuel i st).steps.length ≤ fuel := by
  intro fuel
  induction fuel with
  | zero => intro i st; rw [runLoop_zero]; simp
  | succ n ih =>
    intro i st
    cases hg : pythonGet urls i with
    | none => rw [runLoop_succ_none base mp orc urls n i st hg]; simp
    | some url =>
      by_cases hf : (processUrl base mp st.fs (orc i) url).outcome = Outcome.fatal
      · rw [runLoop_succ_fatal base mp orc urls n i st url hg hf]; simp
      · rw [runLoop_succ_cont base mp orc urls n i st url hg hf]
        simp only [List.length_cons]
        exact Nat.add_le_add_right (ih (i + 1) _) 1

theorem runLoop_steps_len_of_ok (base : Str) (mp : List (Str × Str))
    (orc : Int → Nat → FetchResult) (urls : List Str) :
    ∀ (fuel : Nat) (i : Int) (st : RunState),
      (runLoop base mp orc urls fuel i st).halted = false →
      (runLoop base mp orc urls fuel i st).err = false →
      (runLoop base mp orc urls fuel i st).steps.length = fuel := by
  intro fuel
  induction fuel with
  | zero => intro i st _ _; rw [runLoop_zero]; rfl
  | succ n ih =>
    intro i st hh he
    cases hg : pythonGet urls i with
    | none =>
      rw [runLoop_succ_none base mp orc urls n i st hg] at he
      simp at he
    | some url =>
      by_cases hf : (processUrl base mp st.fs (orc i) url).outcome = Outcome.fatal
      · rw [runLoop_succ_fatal base mp orc urls n i st url hg hf] at hh
        simp at hh
      · rw [runLoop_succ_cont base mp orc urls n i st url hg hf] at hh he ⊢
        simp only [List.length_cons]
        rw [ih (i + 1) _ hh he]

theorem runLoop_nonfatal (base : Str) (mp : List (Str × Str))
    (orc : Int → Nat → FetchResult) (urls : List Str) :
    ∀ (fuel : Nat) (i : Int) (st : RunState),
      (runLoop base mp orc urls fuel i st).halted = false →
      ∀ s ∈ (runLoop base mp orc urls fuel i st).steps, s.outcome ≠ Outcome.fatal := by
  intro fuel
  induction fuel with
  | zero => intro i st _ s hs; rw [runLoop_zero] at hs; simp at hs
  | succ n ih =>
    intro i st hh s hs
    cases hg : pythonGet urls i with
    | none =>
      rw [runLoop_succ_none base mp orc urls n i st hg] at hs
      simp at hs
    | some url =>
      by_cases hf : (processUrl base mp st.fs (orc i) url).outcome = Outcome.fatal
      · rw [runLoop_succ_fatal base mp orc urls n i st url hg hf] at hh
        simp at hh
      · rw [runLoop_succ_cont base mp orc urls n i st url hg hf] at hh hs
        rcases List.mem_cons.mp hs with rfl | hs'
        · simpa [stepOf] using hf
        · exact ih (i + 1) _ hh s hs'

theorem runLoop_halted (base : Str) (mp : List (Str × Str))
    (orc : Int → Nat → FetchResult) (urls : List Str) :
    ∀ (fuel : Nat) (i : Int) (st : RunState),
      (runLoop base mp orc urls fuel i st).halted = true →
      (runLoop base mp orc urls fuel i st).err = false ∧
      ∃ pre s, (runLoop base mp orc urls fuel i st).steps = pre ++ [s] ∧
        s.outcome = Outcome.fatal ∧ s.idx = i + pre.length ∧
        ∀ t ∈ pre, t.outcome ≠ Outcome.fatal := by
  intro fuel
  induction fuel with
  | zero => intro i st hh; rw [runLoop_zero] at hh; simp at hh
  | succ n ih =>
    intro i st hh
    cases hg : pythonGet urls i with
    | none =>
      rw [runLoop_succ_none base mp orc urls n i st hg] at hh
      simp at hh
    | some url =>
      by_cases hf : (processUrl base mp st.fs (orc i) url).outcome = Outcome.fatal
      · rw [runLoop_succ_fatal base mp orc urls n i st url hg hf]
        refine ⟨rfl, [], _, rfl, hf, by simp [stepOf], by simp⟩
      · rw [runLoop_succ_cont base mp orc urls n i st url hg hf] at hh ⊢
        obtain ⟨herr, pre, s, hsteps, hso, hidx, hpre⟩ := ih (i + 1) _ hh
        refine ⟨herr, stepOf i url (processUrl base mp st.fs (orc i) url) :: pre,
          s, ?_, hso, ?_, ?_⟩
        · simp only [List.cons_append]
          rw [hsteps]
        · rw [hidx]
          simp only [List.length_cons]
          push_cast
          ring
        · intro t ht
          rcases List.mem_cons.mp ht with rfl | ht'
          · simpa [stepOf] using hf
          · exact hpre t ht'


theorem runLoop_marker (base : Str) (mp : List (Str × Str))
    (orc : Int → Nat → FetchResult) (urls : List Str) :
    ∀ (fuel : Nat) (i : Int) (st : RunState),
      (runLoop base mp orc urls fuel i st).final.marker =
        (if ((runLoop base mp orc urls fuel i st).steps.filter
              (fun s => !(s.outcome == Outcome.fatal))).length = 0
         then st.marker
         else some (i + ((runLoop base mp orc urls fuel i st).steps.filter
              (fun s => !(s.outcome == Outcome.fatal))).length - 1)) := by
  intro fuel
  induction fuel with
  | zero => intro i st; rw [runLoop_zero]; simp
  | succ n ih =>
    intro i st
    cases hg : pythonGet urls i with
    | none => rw [runLoop_succ_none base mp orc urls n i st hg]; simp
    | some url =>
      by_cases hf : (processUrl base mp st.fs (orc i) url).outcome = Outcome.fatal
      · rw [runLoop_succ_fatal base mp orc urls n i st url hg hf]
        simp [stepOf, haltState, hf]
      · rw [runLoop_succ_cont base mp orc urls n i st url hg hf]
        have hp : ((fun s => !(s.outcome == Outcome.fatal))
            (stepOf i url (processUrl base mp st.fs (orc i) url))) = true := by
          simp [stepOf, hf]
        dsimp only
        rw [ih (i + 1) (advState i st (processUrl base mp st.fs (orc i) url))]
        rw [show (advState i st (processUrl base mp st.fs (orc i) url)).marker =
          some i from rfl]
        generalize (runLoop base mp orc urls n (i + 1)
            (advState i st (processUrl base mp st.fs (orc i) url))).steps = rs
        have hfil : List.filter (fun s => !(s.outcome == Outcome.fatal))
            (stepOf i url (processUrl base mp st.fs (orc i) url) :: rs) =
            stepOf i url (processUrl base mp st.fs (orc i) url) ::
              List.filter (fun s => !(s.outcome == Outcome.fatal)) rs := by
          simp [stepOf, hf]
        rw [hfil, List.length_cons]
        rw [if_neg (Nat.succ_ne_zero (List.filter
          (fun s => !(s.outcome == Outcome.fatal)) rs).length)]
        by_cases hz : (List.filter (fun s => !(s.outcome == Outcome.fatal)) rs).length = 0
        · rw [if_pos hz, hz]
          congr 1
          push_cast
          ring
        · rw [if_neg hz]
          congr 1
          push_cast
          ring

theorem runLoop_log404 (base : Str) (mp : List (Str × Str))
    (orc : Int → Nat → FetchResult) (urls : List Str) :
    ∀ (fuel : Nat) (i : Int) (st : RunState),
      (runLoop base mp orc urls fuel i st).final.log404 =
        st.log404 ++ ((runLoop base mp orc urls fuel i st).steps.filter
            (fun s => s.outcome == Outcome.logged404)).map Step.url := by
  intro fuel
  induction fuel with
  | zero => intro i st; rw [runLoop_zero]; simp
  | succ n ih =>
    intro i st
    cases hg : pythonGet urls i with
    | none => rw [runLoop_succ_none base mp orc urls n i st hg]; simp
    | some url =>
      by_cases hf : (processUrl base mp st.fs (orc i) url).outcome = Outcome.fatal
      · rw [runLoop_succ_fatal base mp orc urls n i st url hg hf]
        simp only [haltState, List.filter_cons]
        rw [processUrl_add404]
        simp [stepOf, hf]
      · rw [runLoop_succ_cont base mp orc urls n i st url hg hf]
        rw [ih (i + 1) (advState i st (processUrl base mp st.fs (orc i) url))]
        simp only [advState, List.filter_cons]
        rw [processUrl_add404]
        by_cases h4 : (processUrl base mp st.fs (orc i) url).outcome = Outcome.logged404
        · simp [stepOf, h4, List.append_assoc]
        · simp [stepOf, h4]

theorem runLoop_logRedirect (base : Str) (mp : List (Str × Str))
    (orc : Int → Nat → FetchResult) (urls : List Str) :
    ∀ (fuel : Nat) (i : Int) (st : RunState),
      (runLoop base mp orc urls fuel i st).final.logRedirect =
        st.logRedirect ++ ((runLoop base mp orc urls fuel i st).steps.filter
            (fun s => s.outcome == Outcome.loggedRedirect)).map Step.url := by
  intro fuel
  induction fuel with
  | zero => intro i st; rw [runLoop_zero]; simp
  | succ n ih =>
    intro i st
    cases hg : pythonGet urls i with
    | none => rw [runLoop_succ_none base mp orc urls n i st hg]; simp
    | some url =>
      by_cases hf : (processUrl base mp st.fs (orc i) url).outcome = Outcome.fatal
      · rw [runLoop_succ_fatal base mp orc urls n i st url hg hf]
        simp only [haltState, List.filter_cons]
        rw [processUrl_addRedirect]
        simp [stepOf, hf]
      · rw [runLoop_succ_cont base mp orc urls n i st url hg hf]
        rw [ih (i + 1) (advState i st (processUrl base mp st.fs (orc i) url))]
        simp only [advState, List.filter_cons]
        rw [processUrl_addRedirect]
        by_cases h4 : (processUrl base mp st.fs (orc i) url).outcome = Outcome.loggedRedirect
        · simp [stepOf, h4, List.append_assoc]
        · simp [stepOf, h4]

theorem runLoop_fs_pres (base : Str) (mp : List (Str × Str))
    (orc : Int → Nat → FetchResult) (urls : List Str) :
    ∀ (fuel : Nat) (i : Int) (st : RunState) (pa : Str),
      (List.lookup pa st.fs).isSome = true →
      List.lookup pa (runLoop base mp orc urls fuel i st).final.fs =
        List.lookup pa st.fs := by
  intro fuel
  induction fuel with
  | zero => intro i st pa _; rw [runLoop_zero]
  | succ n ih =>
    intro i st pa h
    cases hg : pythonGet urls i with
    | none => rw [runLoop_succ_none base mp orc urls n i st hg]
    | some url =>
      by_cases hf : (processUrl base mp st.fs (orc i) url).outcome = Outcome.fatal
      · rw [runLoop_succ_fatal base mp orc urls n i st url hg hf]
        exact processUrl_lookup_pres base mp st.fs (orc i) url pa h
      · rw [runLoop_succ_cont base mp orc urls n i st url hg hf]
        have hpre := processUrl_lookup_pres base mp st.fs (orc i) url pa h
        have h' : (List.lookup pa (advState i st
            (processUrl base mp st.fs (orc i) url)).fs).isSome = true := by
          simp only [advState]
          rw [hpre]
          exact h
        rw [ih (i + 1) _ pa h']
        simp only [advState]
        exact hpre

theorem runLoop_skip_of_present (base : Str) (mp : List (Str × Str))
    (orc : Int → Nat → FetchResult) (urls : List Str) :
    ∀ (fuel : Nat) (i : Int) (st : RunState) (pa : Str),
      (List.lookup pa st.fs).isSome = true →
      ∀ s ∈ (runLoop base mp orc urls fuel i st).steps,
        targetPath base mp s.url = some pa →
        s.outcome = Outcome.skippedExisting ∧ s.calls = 0 := by
  intro fuel
  induction fuel with
  | zero => intro i st pa _ s hs; rw [runLoop_zero] at hs; simp at hs
  | succ n ih =>
    intro i st pa h s hs htp
    cases hg : pythonGet urls i with
    | none =>
      rw [runLoop_succ_none base mp orc urls n i st hg] at hs
      simp at hs
    | some url =>
      have hstep : ∀ (hsu : s = stepOf i url (processUrl base mp st.fs (orc i) url)),
          s.outcome = Outcome.skippedExisting ∧ s.calls = 0 := by
        intro hsu
        have hurl : s.url = url := by rw [hsu]; rfl
        rw [hurl] at htp
        rcases processUrl_cases base mp st.fs (orc i) url with
            ⟨hnone, _, _⟩ | ⟨pa', h1, h2, he⟩ | ⟨pa', h1, hn, _⟩
        · rw [hnone] at htp; cases htp
        · rw [h1] at htp
          have : pa' = pa := by injection htp
          subst this
          rw [hsu, he]
          exact ⟨rfl, rfl⟩
        · rw [h1] at htp
          have : pa' = pa := by injection htp
          subst this
          rw [hn] at h
          simp at h
      by_cases hf : (processUrl base mp st.fs (orc i) url).outcome = Outcome.fatal
      · rw [runLoop_succ_fatal base mp orc urls n i st url hg hf] at hs
        rcases List.mem_cons.mp hs with rfl | hs'
        · exact hstep rfl
        · simp at hs'
      · rw [runLoop_succ_cont base mp orc urls n i st url hg hf] at hs
        rcases List.mem_cons.mp hs with rfl | hs'
        · exact hstep rfl
        · have hpre := processUrl_lookup_pres base mp st.fs (orc i) url pa h
          have h' : (List.lookup pa (advState i st
              (processUrl base mp st.fs (orc i) url)).fs).isSome = true := by
            simp only [advState]
            rw [hpre]
            exact h
          exact ih (i + 1) _ pa h' s hs' htp

theorem pythonGet_some_of_lt (urls : List Str) (i : Int) (h0 : 0 ≤ i)
    (hlt : i < (urls.length : Int)) :
    ∃ u, pythonGet urls i = some u := by
  unfold pythonGet
  rw [if_pos h0]
  have h : i.toNat < urls.length := by omega
  exact ⟨urls[i.toNat], List.getElem?_eq_getElem h⟩

theorem runLoop_noerr (base : Str) (mp : List (Str × Str))
    (orc : Int → Nat → FetchResult) (urls : List Str) :
    ∀ (fuel : Nat) (i : Int) (st : RunState), 0 ≤ i →
      i + fuel ≤ (urls.length : Int) →
      (runLoop base mp orc urls fuel i st).err = false := by
  intro fuel
  induction fuel with
  | zero => intro i st _ _; rw [runLoop_zero]
  | succ n ih =>
    intro i st h0 hle
    obtain ⟨u, hg⟩ := pythonGet_some_of_lt urls i h0 (by push_cast at hle ⊢; omega)
    by_cases hf : (processUrl base mp st.fs (orc i) u).outcome = Outcome.fatal
    · rw [runLoop_succ_fatal base mp orc urls n i st u hg hf]
    · rw [runLoop_succ_cont base mp orc urls n i st u hg hf]
      exact ih (i + 1) _ (by omega) (by push_cast at hle ⊢; omega)

theorem runLoop_populated (base : Str) (mp : List (Str × Str))
    (orc : Int → Nat → FetchResult) (urls : List Str) :
    ∀ (fuel : Nat) (i : Int) (st : RunState),
      (∀ (j : Int) (u pa : Str), pythonGet urls j = some u →
        targetPath base mp u = some pa → (List.lookup pa st.fs).isSome = true) →
      (runLoop base mp orc urls fuel i st).final.fs = st.fs ∧
      (runLoop base mp orc urls fuel i st).final.log404 = st.log404 ∧
      (runLoop base mp orc urls fuel i st).final.logRedirect = st.logRedirect ∧
      (runLoop base mp orc urls fuel i st).halted = false ∧
      ∀ s ∈ (runLoop base mp orc urls fuel i st).steps,
        s.calls = 0 ∧ s.outcome ≠ Outcome.fatal := by
  intro fuel
  induction fuel with
  | zero =>
    intro i st _
    rw [runLoop_zero]
    exact ⟨rfl, rfl, rfl, rfl, by simp⟩
  | succ n ih =>
    intro i st H
    cases hg : pythonGet urls i with
    | none =>
      rw [runLoop_succ_none base mp orc urls n i st hg]
      exact ⟨rfl, rfl, rfl, rfl, by simp⟩
    | some url =>
      have hso : processUrl base mp st.fs (orc i) url =
          ⟨(processUrl base mp st.fs (orc i) url).outcome, st.fs, 0, [], [], []⟩ ∧
          (processUrl base mp st.fs (orc i) url).outcome ≠ Outcome.fatal := by
        rcases processUrl_cases base mp st.fs (orc i) url with
            ⟨hnone, ho, he⟩ | ⟨pa', h1, h2, he⟩ | ⟨pa', h1, hn, _⟩
        · refine ⟨he, ?_⟩
          rcases ho with h | h <;> rw [h] <;> intro hc <;> cases hc
        · refine ⟨by rw [he], ?_⟩
          rw [he]
          intro hc
          cases hc
        · have hH := H i url pa' hg h1
          rw [hn] at hH
          simp at hH
      have hf : ¬ (processUrl base mp st.fs (orc i) url).outcome = Outcome.fatal :=
        hso.2
      have hadv : advState i st (processUrl base mp st.fs (orc i) url) =
          ⟨some i, st.fs, st.log404, st.logRedirect⟩ := by
        rw [advState, hso.1]
        simp
      rw [runLoop_succ_cont base mp orc urls n i st url hg hf, hadv]
      dsimp only
      have H' : ∀ (j : Int) (u pa : Str), pythonGet urls j = some u →
          targetPath base mp u = some pa →
          (List.lookup pa (RunState.mk (some i) st.fs st.log404 st.logRedirect).fs).isSome
            = true := by
        intro j u pa hj htp
        exact H j u pa hj htp
      obtain ⟨hfs, h4, hr, hh, hsteps⟩ := ih (i + 1)
        ⟨some i, st.fs, st.log404, st.logRedirect⟩ H'
      refine ⟨hfs, h4, hr, hh, ?_⟩
      intro s hs
      rcases List.mem_cons.mp hs with rfl | hs'
      · constructor
        · show (processUrl base mp st.fs (orc i) url).calls = 0
          rw [hso.1]
        · show ¬ (processUrl base mp st.fs (orc i) url).outcome = Outcome.fatal
          exact hf
      · exact hsteps s hs'


/-! ### Lemmas about the classifier -/

theorem mem_firstSeen {α : Type} [DecidableEq α] (a : α) :
    ∀ l : List α, a ∈ firstSeen l ↔ a ∈ l
  | [] => by simp [firstSeen]
  | x :: xs => by
    simp only [firstSeen, List.mem_cons, List.mem_filter]
    constructor
    · rintro (rfl | ⟨h1, _⟩)
      · exact Or.inl rfl
      · exact Or.inr ((mem_firstSeen a xs).mp h1)
    · rintro (rfl | h)
      · exact Or.inl rfl
      · by_cases hax : a = x
        · exact Or.inl hax
        · refine Or.inr ⟨(mem_firstSeen a xs).mpr h, ?_⟩
          simp [hax]

theorem nodup_firstSeen {α : Type} [DecidableEq α] :
    ∀ l : List α, (firstSeen l).Nodup
  | [] => by simp [firstSeen]
  | x :: xs => by
    simp only [firstSeen]
    refine List.Pairwise.cons ?_ (List.Nodup.filter _ (nodup_firstSeen xs))
    intro y hy
    have h2 := (List.mem_filter.mp hy).2
    have hyx : y ≠ x := by simpa using h2
    exact hyx.symm

theorem idxIn_get {α : Type} [DecidableEq α] :
    ∀ (l : List α), l.Nodup → ∀ i : Fin l.length, idxIn (l.get i) l = i
  | [], _, i => absurd i.2 (by simp)
  | x :: xs, h, i => by
    rcases i with ⟨iv, hi⟩
    cases iv with
    | zero => simp [idxIn]
    | succ n =>
      have hn : n < xs.length := by simpa using hi
      have hmem : xs.get ⟨n, hn⟩ ∈ xs := List.get_mem xs n hn
      have hx : x ∉ xs := (List.nodup_cons.mp h).1
      have hne : x ≠ xs.get ⟨n, hn⟩ := fun he => hx (he ▸ hmem)
      show idxIn ((x :: xs).get ⟨n + 1, hi⟩) (x :: xs) = n + 1
      have hget : (x :: xs).get ⟨n + 1, hi⟩ = xs.get ⟨n, hn⟩ := rfl
      rw [hget]
      show (if x = xs.get ⟨n, hn⟩ then 0 else idxIn (xs.get ⟨n, hn⟩) xs + 1) = n + 1
      rw [if_neg hne, idxIn_get xs (List.nodup_cons.mp h).2 ⟨n, hn⟩]

theorem nodup_pairwise_idxIn {α : Type} [DecidableEq α] (l : List α)
    (h : l.Nodup) : l.Pairwise (fun a b => idxIn a l < idxIn b l) := by
  rw [List.pairwise_iff_get]
  intro i j hij
  rw [idxIn_get l h i, idxIn_get l h j]
  exact hij

/-- Inserting into a stably sorted list keeps it stably sorted: the output is
pairwise ordered by `r`, and on ties the original pairwise relation `Q` is
preserved. -/
theorem orderedInsert_stable {α : Type} (r Q : α → α → Prop) [DecidableRel r]
    (htot : ∀ a b, r a b ∨ r b a) (htrans : ∀ a b c, r a b → r b c → r a c)
    (x : α) :
    ∀ l : List α, l.Pairwise (fun a b => r a b ∧ (r b a → Q a b)) →
      (∀ y ∈ l, Q x y) →
      (List.orderedInsert r x l).Pairwise (fun a b => r a b ∧ (r b a → Q a b))
  | [], _, _ => by simp
  | y :: ys, hp, hq => by
    rw [List.orderedInsert]
    by_cases hxy : r x y
    · rw [if_pos hxy]
      refine List.Pairwise.cons ?_ hp
      intro z hz
      rcases List.mem_cons.mp hz with rfl | hz'
      · exact ⟨hxy, fun _ => hq z (List.mem_cons_self _ _)⟩
      · have hyz : r y z := (List.rel_of_pairwise_cons hp hz').1
        exact ⟨htrans x y z hxy hyz, fun _ => hq z (List.mem_cons.mpr (Or.inr hz'))⟩
    · rw [if_neg hxy]
      have hys := List.pairwise_cons.mp hp
      refine List.Pairwise.cons ?_ (orderedInsert_stable r Q htot htrans x ys hys.2 ?_)
      · intro z hz
        rw [List.mem_orderedInsert] at hz
        rcases hz with hzx | hz'
        · rw [hzx]
          exact ⟨(htot x y).resolve_left hxy, fun hzy => absurd hzy hxy⟩
        · exact hys.1 z hz'
      · intro z hz
        exact hq z (List.mem_cons.mpr (Or.inr hz))

/-- Stability of insertion sort, in pairwise form. -/
theorem insertionSort_stable {α : Type} (r Q : α → α → Prop) [DecidableRel r]
    (htot : ∀ a b, r a b ∨ r b a) (htrans : ∀ a b c, r a b → r b c → r a c) :
    ∀ l : List α, l.Pairwise Q →
      (List.insertionSort r l).Pairwise (fun a b => r a b ∧ (r b a → Q a b))
  | [], _ => by simp
  | x :: xs, hp => by
    rw [List.insertionSort]
    refine orderedInsert_stable r Q htot htrans x (List.insertionSort r xs)
      (insertionSort_stable r Q htot htrans xs (List.pairwise_cons.mp hp).2) ?_
    intro y hy
    exact (List.pairwise_cons.mp hp).1 y ((List.mem_insertionSort r).mp hy)

theorem enumFrom_map_fst_eq_range {α : Type} :
    ∀ (n : Nat) (l : List α),
      (List.enumFrom n l).map Prod.fst = List.range' n l.length
  | _, [] => rfl
  | n, x :: xs => by
    rw [List.enumFrom_cons, List.map_cons, List.length_cons, List.range'_succ]
    rw [enumFrom_map_fst_eq_range (n + 1) xs]


/-! ### Lemmas about the sanitizers -/

theorem safeChar_subChar (c : Char) : safeChar (subChar c) = true := by
  unfold subChar
  by_cases h : safeChar c = true
  · rw [if_pos h]
    exact h
  · rw [if_neg h]
    decide

theorem head?_dropWhile (p : Char → Bool) :
    ∀ (l : Str) (x : Char), (l.dropWhile p).head? = some x → p x = false
  | [], x, h => by simp at h
  | c :: cs, x, h => by
    rw [List.dropWhile_cons] at h
    by_cases hc : p c = true
    · rw [if_pos hc] at h
      exact head?_dropWhile p cs x h
    · rw [if_neg hc] at h
      simp only [List.head?_cons, Option.some.injEq] at h
      rw [← h]
      exact Bool.eq_false_iff.mpr hc

theorem stripChar_getLast?_ne (c : Char) (l : Str) :
    (stripChar c l).getLast? ≠ some c := by
  unfold stripChar
  rw [List.getLast?_reverse]
  intro h
  have hpc := head?_dropWhile _ _ _ h
  simp at hpc

theorem stripChar_head?_ne (c : Char) (l : Str) :
    (stripChar c l).head? ≠ some c := by
  unfold stripChar
  rw [List.head?_reverse]
  intro h
  obtain ⟨t, ht⟩ :=
    List.dropWhile_suffix (l := (l.dropWhile (· = c)).reverse) (· = c)
  have hm : ((l.dropWhile (· = c)).reverse).getLast? = some c := by
    rw [← ht, List.getLast?_append, h]
    rfl
  rw [List.getLast?_reverse] at hm
  have hpc := head?_dropWhile _ _ _ hm
  simp at hpc

theorem mem_stripChar (c x : Char) (l : Str) (h : x ∈ stripChar c l) : x ∈ l := by
  unfold stripChar at h
  rw [List.mem_reverse] at h
  have h1 := (List.dropWhile_sublist (· = c)).subset h
  rw [List.mem_reverse] at h1
  exact (List.dropWhile_sublist (· = c)).subset h1

theorem stripChar_decomp (c : Char) (l : Str) :
    ∃ a b, l = List.replicate a c ++ stripChar c l ++ List.replicate b c := by
  have htake : ∀ m : Str, m.takeWhile (· = c) =
      List.replicate (m.takeWhile (· = c)).length c := by
    intro m
    apply List.eq_replicate_of_mem
    intro b hb
    simpa using List.mem_takeWhile_imp hb
  obtain ⟨a, ha⟩ : ∃ a, l.takeWhile (· = c) = List.replicate a c := ⟨_, htake l⟩
  obtain ⟨b, hb⟩ : ∃ b, (l.dropWhile (· = c)).reverse.takeWhile (· = c) =
      List.replicate b c := ⟨_, htake _⟩
  refine ⟨a, b, ?_⟩
  have hsplit : l.takeWhile (· = c) ++ l.dropWhile (· = c) = l :=
    List.takeWhile_append_dropWhile (· = c) l
  have hd : (l.dropWhile (· = c)).reverse.takeWhile (· = c) ++
      (l.dropWhile (· = c)).reverse.dropWhile (· = c) =
      (l.dropWhile (· = c)).reverse :=
    List.takeWhile_append_dropWhile (· = c) _
  have hd2 := congrArg List.reverse hd
  rw [List.reverse_append, List.reverse_reverse, hb, List.reverse_replicate] at hd2
  unfold stripChar
  conv_lhs => rw [← hsplit]
  rw [ha]
  conv_lhs => rw [← hd2]
  rw [← List.append_assoc]

theorem sanitize_for_foldername_safe (text : Str) :
    ∀ x ∈ sanitize_for_foldername text, safeChar x = true := by
  intro x hx
  unfold sanitize_for_foldername at hx
  have hx2 := mem_stripChar _ _ _ hx
  rw [List.mem_map] at hx2
  obtain ⟨y, _, rfl⟩ := hx2
  exact safeChar_subChar y

/-! ### Lemmas about the attempt loop, continued -/

theorem retryable_cases (r : FetchResult) (h : retryable r = true) :
    r = .networkError ∨ ∃ st, r = .httpError st ∧ ¬ st = 404 := by
  cases r with
  | networkError => exact Or.inl rfl
  | httpError st =>
    refine Or.inr ⟨st, rfl, ?_⟩
    intro h404
    subst h404
    simp [retryable] at h
  | success body => simp [retryable] at h
  | tooManyRedirects => simp [retryable] at h


theorem attemptLoopAux_retry (orc : Nat → FetchResult) (n k : Nat)
    (h : retryable (orc k) = true) :
    attemptLoopAux orc (n + 1) k =
      ⟨(attemptLoopAux orc n (k + 1)).result,
       (attemptLoopAux orc n (k + 1)).calls + 1,
       (if k < max_retries - 1 then [2 ^ k] else []) ++
         (attemptLoopAux orc n (k + 1)).sleeps⟩ := by
  rcases retryable_cases (orc k) h with hr | ⟨st, hr, h404⟩
  · simp only [attemptLoopAux, hr]
  · simp only [attemptLoopAux, hr]
    rw [if_neg h404]

theorem attemptLoopAux_success (orc : Nat → FetchResult) (n k : Nat) (body : Str)
    (h : orc k = .success body) :
    attemptLoopAux orc (n + 1) k = ⟨.success body, 1, []⟩ := by
  simp only [attemptLoopAux, h]

theorem attemptLoop_step0 (orc : Nat → FetchResult)
    (h : retryable (orc 0) = true) :
    attemptLoop orc = ⟨(attemptLoopAux orc 2 1).result,
      (attemptLoopAux orc 2 1).calls + 1, 1 :: (attemptLoopAux orc 2 1).sleeps⟩ := by
  have h2 := attemptLoopAux_retry orc 2 0 h
  simp [max_retries] at h2
  rw [attemptLoop, show max_retries = 3 from rfl]
  exact h2

theorem attemptLoop_step01 (orc : Nat → FetchResult)
    (h0 : retryable (orc 0) = true) (h1 : retryable (orc 1) = true) :
    attemptLoop orc = ⟨(attemptLoopAux orc 1 2).result,
      (attemptLoopAux orc 1 2).calls + 1 + 1,
      1 :: 2 :: (attemptLoopAux orc 1 2).sleeps⟩ := by
  rw [attemptLoop_step0 orc h0]
  have h2 := attemptLoopAux_retry orc 1 1 h1
  simp [max_retries] at h2
  rw [h2]

theorem attemptLoop_exhaust (orc : Nat → FetchResult)
    (h0 : retryable (orc 0) = true) (h1 : retryable (orc 1) = true)
    (h2 : retryable (orc 2) = true) :
    attemptLoop orc = ⟨AttemptOutcome.exhausted, 3, [1, 2]⟩ := by
  rw [attemptLoop_step01 orc h0 h1]
  have h4 : attemptLoopAux orc 0 3 = ⟨AttemptOutcome.exhausted, 0, []⟩ := rfl
  have h3 := attemptLoopAux_retry orc 0 2 h2
  rw [h4] at h3
  simp [max_retries] at h3
  rw [h3]

/-- C2: for every URL entering the attempt loop, at most 3 HTTP attempts are
made; a retryable error (non-404 HTTP error or network error) on 0-indexed
attempt `k < 2` causes a sleep of `2^k` time units followed by a retry; if all
3 attempts fail retryably the outcome is a fatal exhaustion; and a successful
response on any attempt — including the third after two transient failures —
yields outcome Saved with no entry written to either error log. -/
theorem claim_C2 (orc : Nat → FetchResult) :
    (attemptLoop orc).calls ≤ 3 ∧
    (∀ k, k < 2 → (∀ j, j ≤ k → retryable (orc j) = true) →
      2 ^ k ∈ (attemptLoop orc).sleeps ∧ k + 2 ≤ (attemptLoop orc).calls) ∧
    ((∀ j, j < 3 → retryable (orc j) = true) →
      (attemptLoop orc).result = AttemptOutcome.exhausted ∧
      (attemptLoop orc).calls = 3 ∧ (attemptLoop orc).sleeps = [1, 2]) ∧
    (∀ k body, k < 3 → (∀ j, j < k → retryable (orc j) = true) →
      orc k = FetchResult.success body →
      (attemptLoop orc).result = AttemptOutcome.success body) ∧
    (∀ (base : Str) (mp fs : List (Str × Str)) (url : Str),
      (processUrl base mp fs orc url).outcome = Outcome.saved →
      (processUrl base mp fs orc url).add404 = [] ∧
      (processUrl base mp fs orc url).addRedirect = []) := by
  refine ⟨attemptLoopAux_calls_le orc max_retries 0, ?_, ?_, ?_, ?_⟩
  · intro k hk hall
    interval_cases k
    · rw [attemptLoop_step0 orc (hall 0 (Nat.le_refl 0))]
      have hc := attemptLoopAux_calls_pos orc 2 1 (by norm_num)
      refine ⟨by simp, ?_⟩
      dsimp only
      omega
    · rw [attemptLoop_step01 orc (hall 0 (by norm_num)) (hall 1 (Nat.le_refl 1))]
      have hc := attemptLoopAux_calls_pos orc 1 2 (by norm_num)
      refine ⟨by simp, ?_⟩
      dsimp only
      omega
  · intro hall
    rw [attemptLoop_exhaust orc (hall 0 (by norm_num)) (hall 1 (by norm_num))
      (hall 2 (by norm_num))]
    exact ⟨rfl, rfl, rfl⟩
  · intro k body hk hprev hsucc
    interval_cases k
    · have hs := attemptLoopAux_success orc 2 0 body hsucc
      norm_num at hs
      rw [attemptLoop, show max_retries = 3 from rfl, hs]
    · rw [attemptLoop_step0 orc (hprev 0 (by norm_num))]
      have hs := attemptLoopAux_success orc 1 1 body hsucc
      norm_num at hs
      rw [hs]
    · rw [attemptLoop_step01 orc (hprev 0 (by norm_num)) (hprev 1 (by norm_num))]
      have hs := attemptLoopAux_success orc 0 2 body hsucc
      norm_num at hs
      rw [hs]
  · intro base mp fs url hsaved
    rcases processUrl_cases base mp fs orc url with
        ⟨_, ho, he⟩ | ⟨pa, _, _, he⟩ | ⟨pa, _, _,
          ⟨body, _, he⟩ | ⟨_, he⟩ | ⟨_, he⟩ | ⟨_, he⟩⟩
    · rcases ho with h | h <;> rw [h] at hsaved <;> simp at hsaved
    · rw [he] at hsaved
      simp at hsaved
    · exact ⟨by rw [he], by rw [he]⟩
    · rw [he] at hsaved
      simp at hsaved
    · rw [he] at hsaved
      simp at hsaved
    · rw [he] at hsaved
      simp at hsaved

/-- Witness for C2 at a concrete oracle: two network errors then a success
gives backoff sleep `2^1`, at least 3 calls, and a saved outcome. -/
theorem claim_C2_witness :
    2 ^ 1 ∈ (attemptLoop (fun k => if k < 2 then FetchResult.networkError
        else FetchResult.success (chars "B"))).sleeps ∧
    1 + 2 ≤ (attemptLoop (fun k => if k < 2 then FetchResult.networkError
        else FetchResult.success (chars "B"))).calls ∧
    (attemptLoop (fun k => if k < 2 then FetchResult.networkError
        else FetchResult.success (chars "B"))).result =
      AttemptOutcome.success (chars "B") := by
  have h := claim_C2 (fun k => if k < 2 then FetchResult.networkError
    else FetchResult.success (chars "B"))
  have hb := h.2.1 1 (by norm_num) (fun j hj => by interval_cases j <;> decide)
  have hd := h.2.2.2.1 2 (chars "B") (by norm_num)
    (fun j hj => by interval_cases j <;> decide) (by decide)
  exact ⟨hb.1, hb.2, hd⟩

/-- C5 counterexample: for the bucket key `"/x/https://y/"` at rank 1 the
code's bucket name differs from the claim's description (the code strips
leading underscores too, and removes protocol substrings anywhere, not just
a prefix). -/
theorem claim_C5_counterexample :
    folderName 1 (chars "/x/https://y/") ≠
      pad3 1 ++ '_' :: sanitizeForFoldernameClaim (chars "/x/https://y/") := by
  decide

/-- C5 (amended): the bucket name is the zero-padded 3-digit rank, `'_'`, and
the sanitized key, where sanitization removes every occurrence of
`"https://"` and then `"http://"`, replaces every character outside
`[A-Za-z0-9_-]` with `'_'`, and trims `'_'` from BOTH ends: the result has
only safe characters, neither starts nor ends with `'_'`, and the replaced
string is exactly the result padded with leading and trailing underscores. -/
theorem claim_C5 (rank : Nat) (key : Str) :
    folderName rank key = pad3 rank ++ '_' :: sanitize_for_foldername key ∧
    (∀ x ∈ sanitize_for_foldername key, safeChar x = true) ∧
    (sanitize_for_foldername key).head? ≠ some '_' ∧
    (sanitize_for_foldername key).getLast? ≠ some '_' ∧
    ∃ a b, (replacePat httpPat (replacePat httpsPat key)).map subChar =
      List.replicate a '_' ++ sanitize_for_foldername key ++
        List.replicate b '_' := by
  refine ⟨rfl, sanitize_for_foldername_safe key, ?_, ?_, ?_⟩
  · exact stripChar_head?_ne '_' _
  · exact stripChar_getLast?_ne '_' _
  · exact stripChar_decomp '_' _

/-- Witness for C5 at a concrete key. -/
theorem claim_C5_witness :
    folderName 2 (chars "x.test/a/") =
      pad3 2 ++ '_' :: sanitize_for_foldername (chars "x.test/a/") ∧
    ∀ x ∈ sanitize_for_foldername (chars "x.test/a/"), safeChar x = true := by
  have h := claim_C5 2 (chars "x.test/a/")
  exact ⟨h.1, h.2.1⟩


/-- C4: every URL with a qualifying separator (a slash that exists and is not
the final character) is assigned exactly one bucket key — the prefix through
that slash — which is among the scanned keys; the ranks assigned by
`enumerate(most_common(), 1)` are exactly `1..k` with no gaps; the ranked
list is a permutation of the counter items; and it is ordered by strictly
descending count with ties among equal counts broken by the order in which
keys were first encountered while scanning the list. -/
theorem claim_C4 (urls : List Str) :
    (∀ u ∈ urls, ∀ j : Nat, rfind '/' u = some j → j + 1 < u.length →
      linkType u = some (List.take (j + 1) u) ∧
      List.take (j + 1) u ∈ firstSeen (keysOf urls)) ∧
    (List.enumFrom 1 (mostCommon urls)).map Prod.fst =
      List.range' 1 (mostCommon urls).length ∧
    List.Perm (mostCommon urls) (counterItems urls) ∧
    (mostCommon urls).Pairwise (fun a b => b.2 < a.2 ∨ (a.2 = b.2 ∧
      idxIn a.1 (firstSeen (keysOf urls)) <
        idxIn b.1 (firstSeen (keysOf urls)))) := by
  refine ⟨?_, ?_, ?_, ?_⟩
  · intro u hu j hj hlen
    have hlt : linkType u = some (List.take (j + 1) u) := by
      simp [linkType, hj, hlen]
    refine ⟨hlt, ?_⟩
    rw [mem_firstSeen]
    unfold keysOf
    rw [List.mem_filterMap]
    exact ⟨u, hu, hlt⟩
  · exact enumFrom_map_fst_eq_range 1 (mostCommon urls)
  · exact List.perm_insertionSort _ _
  · have hnd := nodup_firstSeen (keysOf urls)
    have hpi := nodup_pairwise_idxIn _ hnd
    have hitems : (counterItems urls).Pairwise (fun a b =>
        idxIn a.1 (firstSeen (keysOf urls)) <
          idxIn b.1 (firstSeen (keysOf urls))) := by
      unfold counterItems
      rw [List.pairwise_map]
      exact hpi
    have hst := insertionSort_stable (fun a b => b.2 ≤ a.2)
      (fun a b => idxIn a.1 (firstSeen (keysOf urls)) <
        idxIn b.1 (firstSeen (keysOf urls)))
      (fun a b => Nat.le_total b.2 a.2) (fun a b c h1 h2 => Nat.le_trans h2 h1)
      (counterItems urls) hitems
    refine hst.imp ?_
    rintro a b ⟨hle, htie⟩
    by_cases heq : a.2 = b.2
    · exact Or.inr ⟨heq, htie (le_of_eq heq)⟩
    · exact Or.inl (lt_of_le_of_ne hle (fun hc => heq hc.symm))

/-- Witness for C4 at a concrete URL list. -/
theorem claim_C4_witness :
    linkType (chars "a/1") = some (chars "a/") ∧
    (List.enumFrom 1 (mostCommon [chars "a/1", chars "a/2",
        chars "b/3"])).map Prod.fst =
      List.range' 1 (mostCommon [chars "a/1", chars "a/2",
        chars "b/3"]).length := by
  have h := claim_C4 [chars "a/1", chars "a/2", chars "b/3"]
  refine ⟨?_, h.2.1⟩
  have h1 := (h.1 (chars "a/1") (by decide) 1 (by decide) (by decide)).1
  rw [h1]
  decide


/-! ### Unfolding the archiver -/

theorem archive_eq_parts (marker : Option Int) (accept : Bool) (urls : List Str)
    (base : Str) (orc : Int → Nat → FetchResult) (fs : List (Str × Str))
    (l4 lr : List Str) (hurls : urls ≠ []) :
    (archive marker accept urls base orc fs l4 lr).steps =
      (runLoop base (folderMapping urls) orc urls
        ((urls.length : Int) - startIndex marker accept).toNat
        (startIndex marker accept) ⟨marker, fs, l4, lr⟩).steps ∧
    (archive marker accept urls base orc fs l4 lr).halted =
      (runLoop base (folderMapping urls) orc urls
        ((urls.length : Int) - startIndex marker accept).toNat
        (startIndex marker accept) ⟨marker, fs, l4, lr⟩).halted ∧
    (archive marker accept urls base orc fs l4 lr).err =
      (runLoop base (folderMapping urls) orc urls
        ((urls.length : Int) - startIndex marker accept).toNat
        (startIndex marker accept) ⟨marker, fs, l4, lr⟩).err ∧
    (archive marker accept urls base orc fs l4 lr).cleared =
      (!(runLoop base (folderMapping urls) orc urls
          ((urls.length : Int) - startIndex marker accept).toNat
          (startIndex marker accept) ⟨marker, fs, l4, lr⟩).halted &&
       !(runLoop base (folderMapping urls) orc urls
          ((urls.length : Int) - startIndex marker accept).toNat
          (startIndex marker accept) ⟨marker, fs, l4, lr⟩).err &&
       (runLoop base (folderMapping urls) orc urls
          ((urls.length : Int) - startIndex marker accept).toNat
          (startIndex marker accept) ⟨marker, fs, l4, lr⟩).final.marker.isSome) ∧
    (archive marker accept urls base orc fs l4 lr).final =
      (if (!(runLoop base (folderMapping urls) orc urls
            ((urls.length : Int) - startIndex marker accept).toNat
            (startIndex marker accept) ⟨marker, fs, l4, lr⟩).halted &&
          !(runLoop base (folderMapping urls) orc urls
            ((urls.length : Int) - startIndex marker accept).toNat
            (startIndex marker accept) ⟨marker, fs, l4, lr⟩).err &&
          (runLoop base (folderMapping urls) orc urls
            ((urls.length : Int) - startIndex marker accept).toNat
            (startIndex marker accept) ⟨marker, fs, l4, lr⟩).final.marker.isSome) = true
       then RunState.mk none
         (runLoop base (folderMapping urls) orc urls
           ((urls.length : Int) - startIndex marker accept).toNat
           (startIndex marker accept) ⟨marker, fs, l4, lr⟩).final.fs
         (runLoop base (folderMapping urls) orc urls
           ((urls.length : Int) - startIndex marker accept).toNat
           (startIndex marker accept) ⟨marker, fs, l4, lr⟩).final.log404
         (runLoop base (folderMapping urls) orc urls
           ((urls.length : Int) - startIndex marker accept).toNat
           (startIndex marker accept) ⟨marker, fs, l4, lr⟩).final.logRedirect
       else (runLoop base (folderMapping urls) orc urls
         ((urls.length : Int) - startIndex marker accept).toNat
         (startIndex marker accept) ⟨marker, fs, l4, lr⟩).final) ∧
    (archive marker accept urls base orc fs l4 lr).events =
      [TopEvent.progressCheck] ++
        (match marker with
         | some _ => [TopEvent.readMarker, TopEvent.prompt]
         | none => []) ++ [TopEvent.loadUrls] ++ [TopEvent.buildMapping] ++
        (runLoop base (folderMapping urls) orc urls
          ((urls.length : Int) - startIndex marker accept).toNat
          (startIndex marker accept) ⟨marker, fs, l4, lr⟩).steps.flatMap stepEvents := by
  simp only [archive]
  rw [if_neg hurls]
  refine ⟨rfl, rfl, rfl, rfl, rfl, ?_⟩
  simp [List.append_assoc]

theorem pythonGet_mem (urls : List Str) (j : Int) (u : Str)
    (h : pythonGet urls j = some u) : u ∈ urls := by
  unfold pythonGet at h
  split_ifs at h
  · exact List.getElem?_mem h
  · exact List.getElem?_mem h

theorem processUrl_skip_existing (base : Str) (mp fs2 : List (Str × Str))
    (orc2 : Nat → FetchResult) (url pa : Str)
    (htp : targetPath base mp url = some pa)
    (hex : (List.lookup pa fs2).isSome = true) :
    processUrl base mp fs2 orc2 url = ⟨.skippedExisting, fs2, 0, [], [], []⟩ := by
  rcases processUrl_cases base mp fs2 orc2 url with
      ⟨hnone, _, _⟩ | ⟨pa2, h1, h2, he⟩ | ⟨pa2, h1, hn, _⟩
  · rw [hnone] at htp
    cases htp
  · exact he
  · rw [h1] at htp
    have hpp : pa2 = pa := by injection htp
    rw [hpp] at hn
    rw [hn] at hex
    simp at hex

/-- C3: for every URL whose derived target path already exists, the outcome
is SkippedExisting with no network call (for every file system, mapping and
oracle; the per-URL check takes no progress-marker input at all); hence
re-running the archiver against a fully-populated output directory — every
reachable URL's target path present — performs zero network calls, never
halts fatally, and leaves the saved-file set and both error logs unchanged,
whatever the progress marker and resume decision. -/
theorem claim_C3 (marker : Option Int) (accept : Bool) (urls : List Str)
    (base : Str) (orc : Int → Nat → FetchResult) (fs : List (Str × Str))
    (l4 lr : List Str)
    (hpop : ∀ (j : Int) (u pa : Str), pythonGet urls j = some u →
      targetPath base (folderMapping urls) u = some pa →
      (List.lookup pa fs).isSome = true) :
    (∀ (mp fs2 : List (Str × Str)) (orc2 : Nat → FetchResult) (url pa : Str),
      targetPath base mp url = some pa → (List.lookup pa fs2).isSome = true →
      processUrl base mp fs2 orc2 url = ⟨.skippedExisting, fs2, 0, [], [], []⟩) ∧
    (archive marker accept urls base orc fs l4 lr).final.fs = fs ∧
    (archive marker accept urls base orc fs l4 lr).final.log404 = l4 ∧
    (archive marker accept urls base orc fs l4 lr).final.logRedirect = lr ∧
    (archive marker accept urls base orc fs l4 lr).halted = false ∧
    (∀ s ∈ (archive marker accept urls base orc fs l4 lr).steps,
      s.calls = 0 ∧ s.outcome ≠ Outcome.fatal) := by
  refine ⟨fun mp fs2 orc2 url pa htp hex =>
    processUrl_skip_existing base mp fs2 orc2 url pa htp hex, ?_⟩
  by_cases hurls : urls = []
  · subst hurls
    exact ⟨rfl, rfl, rfl, rfl, by intro s hs; simp [archive] at hs⟩
  · obtain ⟨hsteps, hhalted, herr, hcleared, hfinal, hevents⟩ :=
      archive_eq_parts marker accept urls base orc fs l4 lr hurls
    obtain ⟨pfs, p4, pr, ph, psteps⟩ := runLoop_populated base (folderMapping urls)
      orc urls ((urls.length : Int) - startIndex marker accept).toNat
      (startIndex marker accept) ⟨marker, fs, l4, lr⟩ hpop
    refine ⟨?_, ?_, ?_, ?_, ?_⟩
    · rw [hfinal]
      split_ifs <;> simpa using pfs
    · rw [hfinal]
      split_ifs <;> simpa using p4
    · rw [hfinal]
      split_ifs <;> simpa using pr
    · rw [hhalted]
      exact ph
    · intro s hs
      rw [hsteps] at hs
      exact psteps s hs

/-- Witness for C3: re-running on a one-URL list whose target file is already
present performs a skip with zero calls and changes nothing. -/
theorem claim_C3_witness :
    (archive none true [chars "a/b"] (chars "out")
      (fun _ _ => FetchResult.networkError)
      [(chars "out/001_a/b.html", chars "X")] [] []).final.fs =
        [(chars "out/001_a/b.html", chars "X")] ∧
    (archive none true [chars "a/b"] (chars "out")
      (fun _ _ => FetchResult.networkError)
      [(chars "out/001_a/b.html", chars "X")] [] []).halted = false := by
  have h := claim_C3 none true [chars "a/b"] (chars "out")
    (fun _ _ => FetchResult.networkError)
    [(chars "out/001_a/b.html", chars "X")] [] []
    (by
      intro j u pa hj htp
      have hu := pythonGet_mem _ _ _ hj
      have hu2 : u = chars "a/b" := by
        rcases List.mem_singleton.mp hu with h2
        exact h2
      subst hu2
      rw [show targetPath (chars "out") (folderMapping [chars "a/b"])
          (chars "a/b") = some (chars "out/001_a/b.html") from by decide] at htp
      have hpa : pa = chars "out/001_a/b.html" := by
        injection htp with h3
        exact h3.symm
      subst hpa
      decide)
  exact ⟨h.2.1, h.2.2.2.2.1⟩


theorem runLoop_fatal_anatomy (base : Str) (mp : List (Str × Str))
    (orc : Int → Nat → FetchResult) (urls : List Str) (fuel : Nat)
    (start : Int) (st : RunState) (i : Int)
    (hfatal : ∃ s ∈ (runLoop base mp orc urls fuel start st).steps,
      s.idx = i ∧ s.outcome = Outcome.fatal) :
    (runLoop base mp orc urls fuel start st).halted = true ∧
    (runLoop base mp orc urls fuel start st).err = false ∧
    start ≤ i ∧
    (runLoop base mp orc urls fuel start st).steps.map Step.idx =
      intRange start (i + 1 - start).toNat ∧
    (∀ s ∈ (runLoop base mp orc urls fuel start st).steps,
      s.idx ≠ i → s.outcome ≠ Outcome.fatal) ∧
    (runLoop base mp orc urls fuel start st).final.marker =
      (if i = start then st.marker else some (i - 1)) := by
  obtain ⟨s0, hs0, hs0i, hs0f⟩ := hfatal
  have hH : (runLoop base mp orc urls fuel start st).halted = true := by
    cases hb : (runLoop base mp orc urls fuel start st).halted
    · exact absurd (runLoop_nonfatal base mp orc urls fuel start st hb s0 hs0)
        (by simp [hs0f])
    · rfl
  obtain ⟨herr, pre, sf, hst, hsf, hsfidx, hpre⟩ :=
    runLoop_halted base mp orc urls fuel start st hH
  have hs0sf : s0 = sf := by
    rw [hst] at hs0
    rcases List.mem_append.mp hs0 with hin | hin
    · exact absurd hs0f (hpre s0 hin)
    · simpa using hin
  have hi : i = start + pre.length := by
    rw [← hs0i, hs0sf, hsfidx]
  refine ⟨hH, herr, by omega, ?_, ?_, ?_⟩
  · rw [runLoop_steps_idx]
    have hlen : (runLoop base mp orc urls fuel start st).steps.length =
        (i + 1 - start).toNat := by
      rw [hst, List.length_append, List.length_cons, List.length_nil]
      omega
    rw [hlen]
  · intro s hs hne
    rw [hst] at hs
    rcases List.mem_append.mp hs with hin | hin
    · exact hpre s hin
    · have : s = sf := by simpa using hin
      rw [this] at hne
      exact absurd (hsfidx.symm ▸ hi.symm) hne
  · rw [runLoop_marker]
    have hfil : List.filter (fun s => !(s.outcome == Outcome.fatal))
        (runLoop base mp orc urls fuel start st).steps = pre := by
      rw [hst, List.filter_append]
      have h1 : List.filter (fun s => !(s.outcome == Outcome.fatal)) pre = pre := by
        rw [List.filter_eq_self]
        intro t ht
        simp [hpre t ht]
      have h2 : List.filter (fun s => !(s.outcome == Outcome.fatal)) [sf] = [] := by
        simp [hsf]
      rw [h1, h2, List.append_nil]
    rw [hfil]
    by_cases hz : pre.length = 0
    · rw [if_pos hz, if_pos (by omega)]
    · rw [if_neg hz, if_neg (by omega)]
      congr 1
      omega

/-- C1: in a session whose start is consistent with the progress file (no
marker with a fresh start, or an accepted resume from a nonnegative marker),
if the URL at index `i` ends in FatalFailure then the run halts immediately
— the attempted indices are exactly start..i and every earlier one is
non-fatal — the progress file is not advanced (it holds `i - 1`, absent when
`i = 0`, so its value is `< i`), the progress file is not cleared, and
accepting the resume prompt on the next run restarts processing exactly at
index `i`. -/
theorem claim_C1 (marker : Option Int) (accept : Bool) (urls : List Str)
    (base : Str) (orc : Int → Nat → FetchResult) (fs : List (Str × Str))
    (l4 lr : List Str) (i : Int)
    (hcons : accept = true ∨ marker = none)
    (hm : ∀ m, marker = some m → 0 ≤ m)
    (hfatal : ∃ s ∈ (archive marker accept urls base orc fs l4 lr).steps,
      s.idx = i ∧ s.outcome = Outcome.fatal) :
    (archive marker accept urls base orc fs l4 lr).halted = true ∧
    (archive marker accept urls base orc fs l4 lr).err = false ∧
    (archive marker accept urls base orc fs l4 lr).cleared = false ∧
    (archive marker accept urls base orc fs l4 lr).steps.map Step.idx =
      intRange (startIndex marker accept)
        (i + 1 - startIndex marker accept).toNat ∧
    (∀ s ∈ (archive marker accept urls base orc fs l4 lr).steps,
      s.idx ≠ i → s.outcome ≠ Outcome.fatal) ∧
    (archive marker accept urls base orc fs l4 lr).final.marker =
      (if 0 < i then some (i - 1) else none) ∧
    (∀ m, (archive marker accept urls base orc fs l4 lr).final.marker =
      some m → m < i) ∧
    startIndex (archive marker accept urls base orc fs l4 lr).final.marker
      true = i := by
  have hurls : urls ≠ [] := by
    intro he
    obtain ⟨s, hs, _, _⟩ := hfatal
    subst he
    simp [archive] at hs
  obtain ⟨hsteps, hhalted, herr2, hcleared, hfinal, hevents⟩ :=
    archive_eq_parts marker accept urls base orc fs l4 lr hurls
  rw [hsteps] at hfatal
  obtain ⟨hH, hE, hle, hidx, hnf, hmark⟩ := runLoop_fatal_anatomy base
    (folderMapping urls) orc urls
    ((urls.length : Int) - startIndex marker accept).toNat
    (startIndex marker accept) ⟨marker, fs, l4, lr⟩ i hfatal
  have hstart0 : 0 ≤ startIndex marker accept := by
    cases hmk : marker with
    | none => simp [startIndex]
    | some m =>
      have hm0 := hm m hmk
      cases accept with
      | false => simp [startIndex]
      | true =>
        simp [startIndex]
        omega
  have hmarkfix : (runLoop base (folderMapping urls) orc urls
      ((urls.length : Int) - startIndex marker accept).toNat
      (startIndex marker accept) ⟨marker, fs, l4, lr⟩).final.marker =
      (if 0 < i then some (i - 1) else none) := by
    rw [hmark]
    by_cases hieq : i = startIndex marker accept
    · rw [if_pos hieq]
      cases marker with
      | none =>
        have hi0 : i = 0 := by
          rw [hieq]
          rfl
        rw [if_neg (by omega)]
      | some m =>
        have hacc : accept = true := by
          rcases hcons with h | h
          · exact h
          · exact Option.noConfusion h
        have hm0 : 0 ≤ m := hm m rfl
        rw [hacc] at hieq
        have hi1 : i = m + 1 := by
          rw [hieq]
          rfl
        rw [if_pos (by omega)]
        show some m = some (i - 1)
        congr 1
        omega
    · rw [if_neg hieq, if_pos (by omega)]
  refine ⟨by rw [hhalted]; exact hH, by rw [herr2]; exact hE, ?_, ?_, ?_, ?_, ?_, ?_⟩
  · rw [hcleared, hH]
    rfl
  · rw [hsteps]
    exact hidx
  · intro s hs
    rw [hsteps] at hs
    exact hnf s hs
  · rw [hfinal]
    rw [if_neg (by rw [hH]; simp)]
    exact hmarkfix
  · intro m hmm
    rw [hfinal, if_neg (by rw [hH]; simp), hmarkfix] at hmm
    by_cases h0 : 0 < i
    · rw [if_pos h0] at hmm
      have : m = i - 1 := by
        injection hmm with h2
        exact h2.symm
      omega
    · rw [if_neg h0] at hmm
      cases hmm
  · rw [hfinal, if_neg (by rw [hH]; simp), hmarkfix]
    by_cases h0 : 0 < i
    · rw [if_pos h0]
      show i - 1 + 1 = i
      omega
    · rw [if_neg h0]
      show (0 : Int) = i
      omega

/-- Witness for C1: fresh session, success at index 0, all attempts failing
at index 1, so the run halts at 1 with marker 0 and resume restart at 1. -/
theorem claim_C1_witness :
    (archive none true [chars "a/b", chars "a/c"] (chars "out")
      (fun i _ => if i = 1 then FetchResult.networkError
        else FetchResult.success (chars "B")) [] [] []).halted = true ∧
    (archive none true [chars "a/b", chars "a/c"] (chars "out")
      (fun i _ => if i = 1 then FetchResult.networkError
        else FetchResult.success (chars "B")) [] [] []).final.marker =
      (if (0 : Int) < 1 then some ((1 : Int) - 1) else none) ∧
    startIndex (archive none true [chars "a/b", chars "a/c"] (chars "out")
      (fun i _ => if i = 1 then FetchResult.networkError
        else FetchResult.success (chars "B")) [] [] []).final.marker true = 1 := by
  have h := claim_C1 none true [chars "a/b", chars "a/c"] (chars "out")
    (fun i _ => if i = 1 then FetchResult.networkError
      else FetchResult.success (chars "B")) [] [] [] 1
    (Or.inl rfl) (fun m hm => by cases hm)
    ⟨⟨1, chars "a/c", Outcome.fatal, 3, [1, 2]⟩, by decide, rfl, rfl⟩
  exact ⟨h.1, h.2.2.2.2.2.1, h.2.2.2.2.2.2.2⟩


/-- C7 counterexample: a resumed run (marker 0 accepted, two URLs) removes
the progress file on natural completion even though the URL at index 0
reached no outcome at all in that run — refuting the claim that the marker
is cleared only when every URL in the list reached a terminal non-fatal
outcome in the same run. -/
theorem claim_C7_counterexample :
    (archive (some 0) true [chars "a/b", chars "a/c"] (chars "out")
      (fun _ _ => FetchResult.success (chars "B")) [] [] []).cleared = true ∧
    (archive (some 0) true [chars "a/b", chars "a/c"] (chars "out")
      (fun _ _ => FetchResult.success (chars "B")) [] [] []).steps.map
        Step.idx = [(1 : Int)] ∧
    (0 : Int) ∉ (archive (some 0) true [chars "a/b", chars "a/c"]
      (chars "out") (fun _ _ => FetchResult.success (chars "B"))
      [] [] []).steps.map Step.idx := by
  refine ⟨by decide, by decide, by decide⟩

/-- C7 (amended): for a run whose start index lies inside the URL list, the
progress file is removed if and only if the processing loop completed
naturally (no fatal failure); on natural completion every URL from the start
index onward — not necessarily every URL of the list, when resuming —
reached a terminal non-fatal outcome in that same run. -/
theorem claim_C7 (marker : Option Int) (accept : Bool) (urls : List Str)
    (base : Str) (orc : Int → Nat → FetchResult) (fs : List (Str × Str))
    (l4 lr : List Str)
    (hstart : 0 ≤ startIndex marker accept)
    (hlt : startIndex marker accept < (urls.length : Int)) :
    ((archive marker accept urls base orc fs l4 lr).cleared = true ↔
      (archive marker accept urls base orc fs l4 lr).halted = false) ∧
    ((archive marker accept urls base orc fs l4 lr).halted = false →
      (archive marker accept urls base orc fs l4 lr).steps.map Step.idx =
        intRange (startIndex marker accept)
          ((urls.length : Int) - startIndex marker accept).toNat ∧
      ∀ s ∈ (archive marker accept urls base orc fs l4 lr).steps,
        s.outcome ≠ Outcome.fatal) ∧
    ((archive marker accept urls base orc fs l4 lr).cleared = true →
      (archive marker accept urls base orc fs l4 lr).final.marker = none) := by
  have hurls : urls ≠ [] := by
    intro he
    rw [he] at hlt
    simp at hlt
    omega
  obtain ⟨hsteps, hhalted, herr2, hcleared, hfinal, hevents⟩ :=
    archive_eq_parts marker accept urls base orc fs l4 lr hurls
  have hfuel : startIndex marker accept +
      (((urls.length : Int) - startIndex marker accept).toNat : Int) ≤
      (urls.length : Int) := by omega
  have herr0 : (runLoop base (folderMapping urls) orc urls
      ((urls.length : Int) - startIndex marker accept).toNat
      (startIndex marker accept) ⟨marker, fs, l4, lr⟩).err = false :=
    runLoop_noerr base (folderMapping urls) orc urls _ _ _ hstart hfuel
  have hfuelpos : ((urls.length : Int) - startIndex marker accept).toNat ≠ 0 := by
    omega
  refine ⟨?_, ?_, ?_⟩
  · rw [hcleared, hhalted]
    constructor
    · intro hc
      cases hb : (runLoop base (folderMapping urls) orc urls
          ((urls.length : Int) - startIndex marker accept).toNat
          (startIndex marker accept) ⟨marker, fs, l4, lr⟩).halted
      · rfl
      · rw [hb] at hc
        simp at hc
    · intro hb
      rw [hb, herr0]
      simp only [Bool.not_false, Bool.true_and]
      have hlen := runLoop_steps_len_of_ok base (folderMapping urls) orc urls
        ((urls.length : Int) - startIndex marker accept).toNat
        (startIndex marker accept) ⟨marker, fs, l4, lr⟩ hb herr0
      rw [runLoop_marker]
      have hcnt : (List.filter (fun s => !(s.outcome == Outcome.fatal))
          (runLoop base (folderMapping urls) orc urls
            ((urls.length : Int) - startIndex marker accept).toNat
            (startIndex marker accept) ⟨marker, fs, l4, lr⟩).steps).length =
          ((urls.length : Int) - startIndex marker accept).toNat := by
        rw [List.filter_eq_self.mpr, hlen]
        intro t ht
        simp [runLoop_nonfatal base (folderMapping urls) orc urls _ _ _ hb t ht]
      rw [hcnt, if_neg hfuelpos]
      rfl
  · intro hb
    rw [hhalted] at hb
    constructor
    · rw [hsteps, runLoop_steps_idx,
        runLoop_steps_len_of_ok base (folderMapping urls) orc urls
          ((urls.length : Int) - startIndex marker accept).toNat
          (startIndex marker accept) ⟨marker, fs, l4, lr⟩ hb herr0]
    · intro s hs
      rw [hsteps] at hs
      exact runLoop_nonfatal base (folderMapping urls) orc urls _ _ _ hb s hs
  · intro hc
    rw [hcleared] at hc
    rw [hfinal, if_pos hc]

/-- Witness for C7: a fresh complete run over one URL clears the progress
file. -/
theorem claim_C7_witness :
    (archive none true [chars "a/b"] (chars "out")
      (fun _ _ => FetchResult.success (chars "B")) [] [] []).cleared = true ∧
    (archive none true [chars "a/b"] (chars "out")
      (fun _ _ => FetchResult.success (chars "B")) [] [] []).final.marker =
      none := by
  have h := claim_C7 none true [chars "a/b"] (chars "out")
    (fun _ _ => FetchResult.success (chars "B")) [] [] []
    (by decide) (by decide)
  have hc := h.1.mpr (by decide)
  exact ⟨hc, h.2.2 hc⟩


theorem processUrl_lookup_unchanged (base : Str) (mp fs : List (Str × Str))
    (orc : Nat → FetchResult) (url pa : Str)
    (h : ¬((processUrl base mp fs orc url).outcome = Outcome.saved ∧
      targetPath base mp url = some pa)) :
    List.lookup pa (processUrl base mp fs orc url).fs = List.lookup pa fs := by
  rcases processUrl_cases base mp fs orc url with
      ⟨_, _, he⟩ | ⟨pa2, _, _, he⟩ | ⟨pa2, htp, hn,
        ⟨body, _, he⟩ | ⟨_, he⟩ | ⟨_, he⟩ | ⟨_, he⟩⟩ <;> rw [he]
  have hsaved : (processUrl base mp fs orc url).outcome = Outcome.saved := by
    rw [he]
  have hne : pa2 ≠ pa := by
    intro hpp
    exact h ⟨hsaved, hpp ▸ htp⟩
  simp [List.lookup, beq_eq_false_iff_ne.mpr (Ne.symm hne)]

theorem runLoop_fs_unchanged (base : Str) (mp : List (Str × Str))
    (orc : Int → Nat → FetchResult) (urls : List Str) :
    ∀ (fuel : Nat) (i : Int) (st : RunState) (pa : Str),
      (∀ s ∈ (runLoop base mp orc urls fuel i st).steps,
        ¬(s.outcome = Outcome.saved ∧ targetPath base mp s.url = some pa)) →
      List.lookup pa (runLoop base mp orc urls fuel i st).final.fs =
        List.lookup pa st.fs := by
  intro fuel
  induction fuel with
  | zero => intro i st pa _; rw [runLoop_zero]
  | succ n ih =>
    intro i st pa H
    cases hg : pythonGet urls i with
    | none => rw [runLoop_succ_none base mp orc urls n i st hg]
    | some url =>
      by_cases hf : (processUrl base mp st.fs (orc i) url).outcome = Outcome.fatal
      · rw [runLoop_succ_fatal base mp orc urls n i st url hg hf] at H ⊢
        refine processUrl_lookup_unchanged base mp st.fs (orc i) url pa ?_
        exact H (stepOf i url (processUrl base mp st.fs (orc i) url))
          (List.mem_cons_self _ _)
      · rw [runLoop_succ_cont base mp orc urls n i st url hg hf] at H ⊢
        have hhead := H (stepOf i url (processUrl base mp st.fs (orc i) url))
          (List.mem_cons_self _ _)
        have htail : ∀ s ∈ (runLoop base mp orc urls n (i + 1)
            (advState i st (processUrl base mp st.fs (orc i) url))).steps,
            ¬(s.outcome = Outcome.saved ∧ targetPath base mp s.url = some pa) := by
          intro s hs
          exact H s (List.mem_cons.mpr (Or.inr hs))
        rw [ih (i + 1) _ pa htail]
        show List.lookup pa (advState i st
          (processUrl base mp st.fs (orc i) url)).fs = List.lookup pa st.fs
        exact processUrl_lookup_unchanged base mp st.fs (orc i) url pa hhead

/-- C6 counterexample: a URL answering 404 in two consecutive complete runs
(the first run logs it and clears the progress file; the second run, started
fresh, fetches and logs it again because 404 URLs are never saved) appears
TWICE in the 404 log — refuting "exactly once across any sequence of runs
and resumes". -/
theorem claim_C6_counterexample :
    (archive none true [chars "a/b"] (chars "out")
      (fun _ _ => FetchResult.httpError 404) [] [] []).steps.map Step.outcome =
      [Outcome.logged404] ∧
    (archive
      (archive none true [chars "a/b"] (chars "out")
        (fun _ _ => FetchResult.httpError 404) [] [] []).final.marker
      true [chars "a/b"] (chars "out")
      (fun _ _ => FetchResult.httpError 404)
      (archive none true [chars "a/b"] (chars "out")
        (fun _ _ => FetchResult.httpError 404) [] [] []).final.fs
      (archive none true [chars "a/b"] (chars "out")
        (fun _ _ => FetchResult.httpError 404) [] [] []).final.log404
      (archive none true [chars "a/b"] (chars "out")
        (fun _ _ => FetchResult.httpError 404) [] [] []).final.logRedirect
      ).steps.map Step.outcome = [Outcome.logged404] ∧
    (archive
      (archive none true [chars "a/b"] (chars "out")
        (fun _ _ => FetchResult.httpError 404) [] [] []).final.marker
      true [chars "a/b"] (chars "out")
      (fun _ _ => FetchResult.httpError 404)
      (archive none true [chars "a/b"] (chars "out")
        (fun _ _ => FetchResult.httpError 404) [] [] []).final.fs
      (archive none true [chars "a/b"] (chars "out")
        (fun _ _ => FetchResult.httpError 404) [] [] []).final.log404
      (archive none true [chars "a/b"] (chars "out")
        (fun _ _ => FetchResult.httpError 404) [] [] []).final.logRedirect
      ).final.log404.count (chars "a/b") = 2 := by
  refine ⟨by decide, by decide, by decide⟩

/-- C6 (amended): a URL whose fetch returns 404 is never written to the
saved-file set (any path no step saves is looked up unchanged), both error
logs are append-only, and within one run the 404 log receives exactly one
entry per step whose outcome is the 404 log outcome — so the URL appears
exactly once per run that processes it, but a later run that reprocesses it
(after completion or a declined resume) appends it again. -/
theorem claim_C6 (marker : Option Int) (accept : Bool) (urls : List Str)
    (base : Str) (orc : Int → Nat → FetchResult) (fs : List (Str × Str))
    (l4 lr : List Str) :
    (archive marker accept urls base orc fs l4 lr).final.log404 =
      l4 ++ ((archive marker accept urls base orc fs l4 lr).steps.filter
        (fun s => s.outcome == Outcome.logged404)).map Step.url ∧
    (archive marker accept urls base orc fs l4 lr).final.logRedirect =
      lr ++ ((archive marker accept urls base orc fs l4 lr).steps.filter
        (fun s => s.outcome == Outcome.loggedRedirect)).map Step.url ∧
    (∃ t4, (archive marker accept urls base orc fs l4 lr).final.log404 =
      l4 ++ t4) ∧
    (∃ tr, (archive marker accept urls base orc fs l4 lr).final.logRedirect =
      lr ++ tr) ∧
    (∀ pa, (∀ s ∈ (archive marker accept urls base orc fs l4 lr).steps,
        ¬(s.outcome = Outcome.saved ∧
          targetPath base (folderMapping urls) s.url = some pa)) →
      List.lookup pa (archive marker accept urls base orc fs l4 lr).final.fs =
        List.lookup pa fs) := by
  by_cases hurls : urls = []
  · subst hurls
    refine ⟨by simp [archive], by simp [archive], ⟨[], by simp [archive]⟩,
      ⟨[], by simp [archive]⟩, ?_⟩
    intro pa _
    rfl
  · obtain ⟨hsteps, hhalted, herr2, hcleared, hfinal, hevents⟩ :=
      archive_eq_parts marker accept urls base orc fs l4 lr hurls
    have hl4 : (archive marker accept urls base orc fs l4 lr).final.log404 =
        l4 ++ ((archive marker accept urls base orc fs l4 lr).steps.filter
          (fun s => s.outcome == Outcome.logged404)).map Step.url := by
      rw [hsteps, hfinal]
      split_ifs
      · show (runLoop base (folderMapping urls) orc urls
          ((urls.length : Int) - startIndex marker accept).toNat
          (startIndex marker accept) ⟨marker, fs, l4, lr⟩).final.log404 = _
        rw [runLoop_log404]
      · rw [runLoop_log404]
    have hlr : (archive marker accept urls base orc fs l4 lr).final.logRedirect =
        lr ++ ((archive marker accept urls base orc fs l4 lr).steps.filter
          (fun s => s.outcome == Outcome.loggedRedirect)).map Step.url := by
      rw [hsteps, hfinal]
      split_ifs
      · show (runLoop base (folderMapping urls) orc urls
          ((urls.length : Int) - startIndex marker accept).toNat
          (startIndex marker accept) ⟨marker, fs, l4, lr⟩).final.logRedirect = _
        rw [runLoop_logRedirect]
      · rw [runLoop_logRedirect]
    refine ⟨hl4, hlr, ⟨_, hl4⟩, ⟨_, hlr⟩, ?_⟩
    intro pa H
    rw [hsteps] at H
    rw [hfinal]
    split_ifs
    · show List.lookup pa (runLoop base (folderMapping urls) orc urls
        ((urls.length : Int) - startIndex marker accept).toNat
        (startIndex marker accept) ⟨marker, fs, l4, lr⟩).final.fs = _
      exact runLoop_fs_unchanged base (folderMapping urls) orc urls _ _ _ pa H
    · exact runLoop_fs_unchanged base (folderMapping urls) orc urls _ _ _ pa H

/-- Witness for C6: one 404 run appends the URL once and saves nothing. -/
theorem claim_C6_witness :
    (archive none true [chars "a/b"] (chars "out")
      (fun _ _ => FetchResult.httpError 404) [] [] []).final.log404 =
      [] ++ ((archive none true [chars "a/b"] (chars "out")
        (fun _ _ => FetchResult.httpError 404) [] [] []).steps.filter
          (fun s => s.outcome == Outcome.logged404)).map Step.url ∧
    List.lookup (chars "out/001_a/b.html")
      (archive none true [chars "a/b"] (chars "out")
        (fun _ _ => FetchResult.httpError 404) [] [] []).final.fs =
      List.lookup (chars "out/001_a/b.html") ([] : List (Str × Str)) := by
  have h := claim_C6 none true [chars "a/b"] (chars "out")
    (fun _ _ => FetchResult.httpError 404) [] [] []
  exact ⟨h.1, h.2.2.2.2 (chars "out/001_a/b.html") (by decide)⟩


theorem runLoop_saved_then_skip (base : Str) (mp : List (Str × Str))
    (orc : Int → Nat → FetchResult) (urls : List Str) :
    ∀ (fuel : Nat) (i : Int) (st : RunState) (k l2 : Nat)
      (hk : k < (runLoop base mp orc urls fuel i st).steps.length)
      (hl : l2 < (runLoop base mp orc urls fuel i st).steps.length),
      k < l2 →
      ((runLoop base mp orc urls fuel i st).steps[k]).outcome = Outcome.saved →
      ∀ pa, targetPath base mp
          ((runLoop base mp orc urls fuel i st).steps[k]).url = some pa →
        targetPath base mp
          ((runLoop base mp orc urls fuel i st).steps[l2]).url = some pa →
        ((runLoop base mp orc urls fuel i st).steps[l2]).outcome =
          Outcome.skippedExisting ∧
        ((runLoop base mp orc urls fuel i st).steps[l2]).calls = 0 := by
  intro fuel
  induction fuel with
  | zero =>
    intro i st k l2 hk hl _ _ _ _ _
    rw [runLoop_zero] at hk
    simp at hk
  | succ n ih =>
    intro i st k l2 hk hl hkl hsv pa hpk hpl
    cases hg : pythonGet urls i with
    | none =>
      rw [runLoop_succ_none base mp orc urls n i st hg] at hk
      simp at hk
    | some url =>
      by_cases hf : (processUrl base mp st.fs (orc i) url).outcome = Outcome.fatal
      · rw [runLoop_succ_fatal base mp orc urls n i st url hg hf] at hk hl
        simp at hk hl
        omega
      · simp only [runLoop_succ_cont base mp orc urls n i st url hg hf] at hk hl hsv hpk hpl ⊢
        cases k with
        | succ k0 =>
          cases l2 with
          | zero => omega
          | succ l0 =>
            simp only [List.getElem_cons_succ] at hsv hpk hpl ⊢
            simp only [List.length_cons] at hk hl
            exact ih (i + 1) _ k0 l0 (by omega) (by omega) (by omega) hsv pa hpk hpl
        | zero =>
          cases l2 with
          | zero => omega
          | succ l0 =>
            simp only [List.getElem_cons_zero] at hsv hpk
            simp only [List.getElem_cons_succ] at hpl ⊢
            simp only [List.length_cons] at hl
            have hsv2 : (processUrl base mp st.fs (orc i) url).outcome =
                Outcome.saved := hsv
            have hurl : (stepOf i url (processUrl base mp st.fs (orc i) url)).url
                = url := rfl
            rw [hurl] at hpk
            rcases processUrl_cases base mp st.fs (orc i) url with
                ⟨hnone, _, _⟩ | ⟨pa2, _, _, he⟩ | ⟨pa2, htp, hn,
                  ⟨body, _, he⟩ | ⟨_, he⟩ | ⟨_, he⟩ | ⟨_, he⟩⟩
            · rw [hnone] at hpk
              cases hpk
            · rw [he] at hsv2
              simp at hsv2
            · rw [htp] at hpk
              have hpp : pa2 = pa := by injection hpk
              subst hpp
              have hlook : (List.lookup pa2 (advState i st
                  (processUrl base mp st.fs (orc i) url)).fs).isSome = true := by
                show (List.lookup pa2
                  (processUrl base mp st.fs (orc i) url).fs).isSome = true
                rw [he]
                simp [List.lookup]
              have hmem : (runLoop base mp orc urls n (i + 1)
                  (advState i st (processUrl base mp st.fs (orc i) url))).steps[l0] ∈
                  (runLoop base mp orc urls n (i + 1)
                    (advState i st (processUrl base mp st.fs (orc i) url))).steps :=
                List.getElem_mem _
              exact runLoop_skip_of_present base mp orc urls n (i + 1)
                (advState i st (processUrl base mp st.fs (orc i) url)) pa2 hlook
                _ hmem hpl
            · rw [he] at hsv2
              simp at hsv2
            · rw [he] at hsv2
              simp at hsv2
            · rw [he] at hsv2
              simp at hsv2

/-- C10: within one run, if the URL at an earlier step was saved and a later
step's URL derives the same target file path (same bucket folder and equal
sanitized trailing segment), the later step ends as SkippedExisting with no
network request — its possibly different content is never downloaded. -/
theorem claim_C10 (marker : Option Int) (accept : Bool) (urls : List Str)
    (base : Str) (orc : Int → Nat → FetchResult) (fs : List (Str × Str))
    (l4 lr : List Str) :
    ∀ (k l2 : Nat)
      (hk : k < (archive marker accept urls base orc fs l4 lr).steps.length)
      (hl : l2 < (archive marker accept urls base orc fs l4 lr).steps.length),
      k < l2 →
      ((archive marker accept urls base orc fs l4 lr).steps[k]).outcome =
        Outcome.saved →
      ∀ pa, targetPath base (folderMapping urls)
          ((archive marker accept urls base orc fs l4 lr).steps[k]).url =
            some pa →
        targetPath base (folderMapping urls)
          ((archive marker accept urls base orc fs l4 lr).steps[l2]).url =
            some pa →
        ((archive marker accept urls base orc fs l4 lr).steps[l2]).outcome =
          Outcome.skippedExisting ∧
        ((archive marker accept urls base orc fs l4 lr).steps[l2]).calls = 0 := by
  by_cases hurls : urls = []
  · subst hurls
    intro k l2 hk hl _ _ _ _ _
    have : (archive none true ([] : List Str) base orc fs l4 lr).steps = [] := rfl
    simp [archive] at hk
  · obtain ⟨hsteps, hhalted, herr2, hcleared, hfinal, hevents⟩ :=
      archive_eq_parts marker accept urls base orc fs l4 lr hurls
    intro k l2 hk hl hkl hsv pa hpk hpl
    simp only [hsteps] at hk hl hsv hpk hpl ⊢
    exact runLoop_saved_then_skip base (folderMapping urls) orc urls _ _ _
      k l2 hk hl hkl hsv pa hpk hpl

/-- Witness for C10: two URLs with the same target path; the first is saved,
the second is skipped with no network call. -/
theorem claim_C10_witness :
    ((archive none true [chars "a/b", chars "a/b"] (chars "out")
      (fun _ _ => FetchResult.success (chars "B")) [] [] []).steps.getD 1
        ⟨0, [], Outcome.fatal, 7, []⟩).outcome = Outcome.skippedExisting ∧
    ((archive none true [chars "a/b", chars "a/b"] (chars "out")
      (fun _ _ => FetchResult.success (chars "B")) [] [] []).steps.getD 1
        ⟨0, [], Outcome.fatal, 7, []⟩).calls = 0 := by
  have h := claim_C10 none true [chars "a/b", chars "a/b"] (chars "out")
    (fun _ _ => FetchResult.success (chars "B")) [] [] [] 0 1
    (by decide) (by decide) (by decide) (by decide)
    (chars "out/001_a/b.html") (by decide) (by decide)
  have hlen : 1 < (archive none true [chars "a/b", chars "a/b"] (chars "out")
      (fun _ _ => FetchResult.success (chars "B")) [] [] []).steps.length := by
    decide
  rw [List.getD_eq_getElem?_getD, List.getElem?_eq_getElem hlen]
  exact ⟨h.1, h.2⟩


/-- C9: a parseable negative marker `m ≤ -2`, with the resume accepted, is
not treated as corrupt: the start index becomes `m + 1 < 0` (not 0, the
"no progress" start), Python's negative indexing makes the first processed
step take the URL at position `length + m + 1` — counted from the end of the
list — and when `|m + 1|` exceeds the list length the run aborts with an
uncaught IndexError before processing anything. -/
theorem claim_C9 (m : Int) (accept2 : Bool) (urls : List Str) (base : Str)
    (orc : Int → Nat → FetchResult) (fs : List (Str × Str)) (l4 lr : List Str)
    (hm : m ≤ -2) (hurls : urls ≠ []) :
    startIndex (some m) true = m + 1 ∧
    m + 1 < 0 ∧
    startIndex (some m) true ≠ startIndex none accept2 ∧
    (m + 1 < -(urls.length : Int) →
      (archive (some m) true urls base orc fs l4 lr).err = true ∧
      (archive (some m) true urls base orc fs l4 lr).steps = []) ∧
    (-(urls.length : Int) ≤ m + 1 →
      ∃ s rest, (archive (some m) true urls base orc fs l4 lr).steps =
        s :: rest ∧ s.idx = m + 1 ∧
        pythonGet urls (m + 1) = some s.url ∧
        urls[((urls.length : Int) + (m + 1)).toNat]? = some s.url) := by
  have hlen : 1 ≤ urls.length := by
    cases urls with
    | nil => exact absurd rfl hurls
    | cons a t => simp
  obtain ⟨hsteps, hhalted, herr2, hcleared, hfinal, hevents⟩ :=
    archive_eq_parts (some m) true urls base orc fs l4 lr hurls
  have hstart : startIndex (some m) true = m + 1 := rfl
  have hfuelpos : ((urls.length : Int) - startIndex (some m) true).toNat ≠ 0 := by
    rw [hstart]
    omega
  obtain ⟨n, hn⟩ := Nat.exists_eq_succ_of_ne_zero hfuelpos
  refine ⟨rfl, by omega, ?_, ?_, ?_⟩
  · rw [hstart]
    cases accept2 <;> simp [startIndex] <;> omega
  · intro hout
    have hg : pythonGet urls (m + 1) = none := by
      unfold pythonGet
      rw [if_neg (by omega), if_neg (by omega)]
    rw [herr2, hsteps, hn, hstart,
      runLoop_succ_none base (folderMapping urls) orc urls n (m + 1)
        ⟨some m, fs, l4, lr⟩ hg]
    exact ⟨rfl, rfl⟩
  · intro hin
    have hnn : 0 ≤ (urls.length : Int) + (m + 1) := by omega
    have hlt2 : ((urls.length : Int) + (m + 1)).toNat < urls.length := by omega
    have hg : pythonGet urls (m + 1) =
        some urls[((urls.length : Int) + (m + 1)).toNat] := by
      unfold pythonGet
      rw [if_neg (by omega), if_pos (by omega)]
      exact List.getElem?_eq_getElem hlt2
    rw [hsteps, hn, hstart]
    by_cases hf : (processUrl base (folderMapping urls)
        (RunState.mk (some m) fs l4 lr).fs (orc (m + 1))
        urls[((urls.length : Int) + (m + 1)).toNat]).outcome = Outcome.fatal
    · rw [runLoop_succ_fatal base (folderMapping urls) orc urls n (m + 1)
        ⟨some m, fs, l4, lr⟩ _ hg hf]
      refine ⟨_, _, rfl, rfl, ?_, ?_⟩
      · rw [hg]
        rfl
      · exact (List.getElem?_eq_getElem hlt2).symm ▸ rfl
    · rw [runLoop_succ_cont base (folderMapping urls) orc urls n (m + 1)
        ⟨some m, fs, l4, lr⟩ _ hg hf]
      refine ⟨_, _, rfl, rfl, ?_, ?_⟩
      · rw [hg]
        rfl
      · exact (List.getElem?_eq_getElem hlt2).symm ▸ rfl

/-- Witness for C9: marker -3 over a two-URL list starts at index -2, which
reads the first URL (2 + (-3) + 1 = 0) — counted from the end. -/
theorem claim_C9_witness :
    ((archive (some (-3)) true [chars "a/b", chars "a/c"] (chars "out")
      (fun _ _ => FetchResult.success (chars "B")) [] [] []).steps.map
        Step.idx).head? = some (-2) := by
  have h := claim_C9 (-3) false [chars "a/b", chars "a/c"] (chars "out")
    (fun _ _ => FetchResult.success (chars "B")) [] [] []
    (by norm_num) (by decide)
  obtain ⟨s, rest, hsteps, hidx, _, _⟩ := h.2.2.2.2 (by norm_num)
  rw [hsteps]
  simp [hidx]

/-- C8 counterexample: the claim "the bucket mapping is built before the
progress marker is consulted" is false on a concrete run — the marker-read
event occurs at position 1 and the mapping-build event at position 4. -/
theorem claim_C8_counterexample :
    ¬ (∀ nb nr : Nat,
      (archive (some 0) true [chars "a/b"] (chars "out")
        (fun _ _ => FetchResult.success (chars "B")) [] [] []).events[nb]? =
          some TopEvent.buildMapping →
      (archive (some 0) true [chars "a/b"] (chars "out")
        (fun _ _ => FetchResult.success (chars "B")) [] [] []).events[nr]? =
          some TopEvent.readMarker →
      nb < nr) := by
  intro h
  have h2 := h 4 1 (by decide) (by decide)
  omega

/-- C8 (amended): the archiver's phases run in the order Progress Store
(existence check, marker read, resume prompt), then URL-list load, then
Classifier (bucket-mapping build), then Fetch Engine: when a marker is
present the first five events are exactly progress-check, marker-read,
prompt, URL-load, mapping-build, and every download event occurs strictly
after the mapping is built. -/
theorem claim_C8 (m : Int) (accept : Bool) (urls : List Str) (base : Str)
    (orc : Int → Nat → FetchResult) (fs : List (Str × Str)) (l4 lr : List Str)
    (hurls : urls ≠ []) :
    (archive (some m) accept urls base orc fs l4 lr).events[0]? =
      some TopEvent.progressCheck ∧
    (archive (some m) accept urls base orc fs l4 lr).events[1]? =
      some TopEvent.readMarker ∧
    (archive (some m) accept urls base orc fs l4 lr).events[2]? =
      some TopEvent.prompt ∧
    (archive (some m) accept urls base orc fs l4 lr).events[3]? =
      some TopEvent.loadUrls ∧
    (archive (some m) accept urls base orc fs l4 lr).events[4]? =
      some TopEvent.buildMapping ∧
    (∀ n i, (archive (some m) accept urls base orc fs l4 lr).events[n]? =
      some (TopEvent.download i) → 5 ≤ n) := by
  obtain ⟨hsteps, hhalted, herr2, hcleared, hfinal, hevents⟩ :=
    archive_eq_parts (some m) accept urls base orc fs l4 lr hurls
  have hev : (archive (some m) accept urls base orc fs l4 lr).events =
      TopEvent.progressCheck :: TopEvent.readMarker :: TopEvent.prompt ::
        TopEvent.loadUrls :: TopEvent.buildMapping ::
        (runLoop base (folderMapping urls) orc urls
          ((urls.length : Int) - startIndex (some m) accept).toNat
          (startIndex (some m) accept)
          ⟨some m, fs, l4, lr⟩).steps.flatMap stepEvents := by
    rw [hevents]
    rfl
  rw [hev]
  refine ⟨by simp, by simp, by simp, by simp, by simp, ?_⟩
  intro n i hn
  by_contra hlt
  push_neg at hlt
  interval_cases n <;> simp at hn

/-- Witness for C8 at a concrete run with a present marker. -/
theorem claim_C8_witness :
    (archive (some 5) true [chars "a/b"] (chars "out")
      (fun _ _ => FetchResult.success (chars "B")) [] [] []).events[1]? =
      some TopEvent.readMarker ∧
    (archive (some 5) true [chars "a/b"] (chars "out")
      (fun _ _ => FetchResult.success (chars "B")) [] [] []).events[4]? =
      some TopEvent.buildMapping := by
  have h := claim_C8 5 true [chars "a/b"] (chars "out")
    (fun _ _ => FetchResult.success (chars "B")) [] [] [] (by decide)
  exact ⟨h.2.1, h.2.2.2.2.1⟩

end DDR
